import Mathlib

/-!
# SerialCommand: tokenizer and command dispatcher

A shallow embedding of `src/lib/SerialCommand/SerialCommand.cpp` and a verification
of its specification.

Conventions of the embedding.

* A byte (`char`) is a natural number below 256; `0` is the NUL terminator of C strings.
* The line buffer is a list of bytes (the object's `char buffer[SERIALCOMMAND_BUFFER + 1]`),
  pointers into it are indices, and a null pointer is `none`.
* A read past the end of a list yields NUL and a write past the end is lost.  The
  invariant `SerialCommand.Inv` keeps the line and the NUL after it inside the buffer.
* A function pointer is a natural number naming the function; the bodies of the
  handlers are given by an environment (`Handlers`).
* The two configuration macros are declared in the header `SerialCommand.hpp`; their
  values are left open, as the two fields of `Config`.
-/

/-- The configuration macros of `SerialCommand.hpp`: the capacity of the line buffer
and the number of significant characters of a command name. -/
structure Config where
  SERIALCOMMAND_BUFFER : Nat
  SERIALCOMMAND_MAXCOMMANDLENGTH : Nat
  deriving DecidableEq, Repr

/-- The C library predicate `isprint` in the "C" locale: the bytes 0x20 to 0x7e. -/
def isprint (c : Nat) : Bool := decide (32 ≤ c) && decide (c ≤ 126)

/-- The C string stored at the start of a memory region: the bytes before the first NUL. -/
def cstr (s : List Nat) : List Nat := s.takeWhile (fun c => decide (c ≠ 0))

/-- The C string a pointer `p` into the memory `mem` points to. -/
def cstrAt (mem : List Nat) (p : Nat) : List Nat := cstr (mem.drop p)

/-- The C library function `strspn`: the length of the longest initial segment of the
C string `s` that consists of bytes of the C string `accept`. -/
def strspn : List Nat → List Nat → Nat
  | [], _ => 0
  | c :: s, accept => if c ≠ 0 ∧ c ∈ accept then strspn s accept + 1 else 0

/-- The C library function `strcspn`: the length of the longest initial segment of the
C string `s` that contains no byte of the C string `reject`. -/
def strcspn : List Nat → List Nat → Nat
  | [], _ => 0
  | c :: s, reject => if c = 0 ∨ c ∈ reject then 0 else strcspn s reject + 1

/-- The C library function `strtok_r(s, delim, &last)` on the memory `mem`: leading
delimiters are skipped, the token runs to the next delimiter, which is overwritten
by NUL, and the scan resumes after it.  As in the BSD implementation the saved
pointer is null once the string is exhausted, and a null saved pointer yields no
token.  The result is the returned pointer, the memory afterwards and the saved
pointer afterwards. -/
def strtok_r (mem : List Nat) (s : Option Nat) (delim : List Nat) (last : Option Nat) :
    Option Nat × List Nat × Option Nat :=
  match (match s with
    | some p => some p
    | none => last) with
  | none => (none, mem, last)
  | some p =>
    let q := p + strspn (mem.drop p) delim
    if mem.getD q 0 = 0 then (none, mem, none)
    else
      let e := q + strcspn (mem.drop q) delim
      if mem.getD e 0 = 0 then (some q, mem, none)
      else (some q, mem.set e 0, some (e + 1))

/-- The C library function `strncmp(s1, s2, n)`: the difference of the first pair of
differing bytes among the first `n`, stopping at a NUL; zero when there is none. -/
def strncmp : List Nat → List Nat → Nat → Int
  | _, _, 0 => 0
  | s1, s2, n + 1 =>
    if s1.headD 0 ≠ s2.headD 0 then (s1.headD 0 : Int) - (s2.headD 0 : Int)
    else if s1.headD 0 = 0 then 0
    else strncmp s1.tail s2.tail n

/-- The C library function `strncpy(dest, src, n)`: the `n` bytes written to `dest`,
the bytes of the C string `src` up to `n` of them, padded with NULs to `n` bytes.
No NUL is written when `src` has `n` or more bytes. -/
def strncpy (src : List Nat) (n : Nat) : List Nat :=
  (cstr src).take n ++ List.replicate (n - (cstr src).length) 0

/-- One entry of the command table (`SerialCommandCallback`): the bytes of `command`
that `strncpy` wrote, and the handler `function`. -/
structure SerialCommandCallback where
  command : List Nat
  function : Nat
  deriving DecidableEq, Repr

/-- Modelled from the spec: the class is declared in the header `SerialCommand.hpp`, which
is not among the sources.  These are the data members the methods use (the two stream
references apart: the source is an argument of `readSerial`); the table is an ordered,
growable sequence of entries, and `commandCount` and `bufPos` are counters that do
not wrap. -/
structure SerialCommand where
  commandList : List SerialCommandCallback
  commandCount : Nat
  defaultHandler : Option Nat
  delim : List Nat
  term : Nat
  buffer : List Nat
  bufPos : Nat
  last : Option Nat
  deriving DecidableEq, Repr

/-- The body of a handler, as far as the dispatcher is concerned: it returns, or it
calls `next()` and goes on according to the token it got (`none` for a null result).
A handler that registers commands, reads the source or calls `readSerial` itself is
outside this model. -/
inductive Handler where
  | ret : Handler
  | next : (Option (List Nat) → Handler) → Handler

/-- The functions the function pointers stand for: the bodies of the command handlers
and of the default handlers, the latter with the string they are passed. -/
structure Handlers where
  command : Nat → Handler
  default : Nat → List Nat → Handler

/-- What a run of `readSerial` does to the outside: a command handler of the table was
called (entry `index`, function `function`), or the default handler was called with a
string; `nexts` are the results of the calls of `next()` the handler made. -/
inductive Event where
  | command (index : Nat) (function : Nat) (nexts : List (Option (List Nat)))
  | default (function : Nat) (arg : List Nat) (nexts : List (Option (List Nat)))
  deriving DecidableEq, Repr

/-- The method `clearBuffer()`. -/
def SerialCommand.clearBuffer (s : SerialCommand) : SerialCommand :=
  { s with buffer := s.buffer.set 0 0, bufPos := 0 }

/-- The constructor.  `raw` is the content of the object's buffer memory before the
constructor runs; the members are set and `clearBuffer()` is called. -/
def SerialCommand.new (raw : List Nat) : SerialCommand :=
  SerialCommand.clearBuffer
    { commandList := []
      commandCount := 0
      defaultHandler := none
      delim := [32]
      term := 10
      buffer := raw
      bufPos := 0
      last := none }

/-- The method `addCommand(command, function)`; the table grows by one entry, whose name
is written by `strncpy`. -/
def SerialCommand.addCommand (cfg : Config) (s : SerialCommand) (command : List Nat)
    (function : Nat) : SerialCommand :=
  { s with
    commandList := s.commandList.take s.commandCount ++
      [{ command := strncpy command cfg.SERIALCOMMAND_MAXCOMMANDLENGTH, function := function }]
    commandCount := s.commandCount + 1 }

/-- The method `setDefaultHandler(function)`; `none` is the null pointer. -/
def SerialCommand.setDefaultHandler (s : SerialCommand) (function : Option Nat) :
    SerialCommand :=
  { s with defaultHandler := function }

/-- The method `next()`: the returned pointer and the object afterwards. -/
def SerialCommand.next (s : SerialCommand) : Option Nat × SerialCommand :=
  let r := strtok_r s.buffer none s.delim s.last
  (r.1, { s with buffer := r.2.1, last := r.2.2 })

/-- Runs the body of a handler on the dispatcher: the object afterwards and the results
of the calls of `next()`, each read as a string when it was returned. -/
def Handler.run : Handler → SerialCommand → SerialCommand × List (Option (List Nat))
  | Handler.ret, s => (s, [])
  | Handler.next k, s =>
    let r := s.next
    let tok := r.1.map (cstrAt r.2.buffer)
    let r2 := (k tok).run r.2
    (r2.1, tok :: r2.2)

/-- The `for` loop of `readSerial` over the entries from index `i` on: the index and
the function of the first entry whose name `strncmp` finds equal to the string at
`command`. -/
def SerialCommand.matchCommand (cfg : Config) (command : List Nat) :
    List SerialCommandCallback → Nat → Option (Nat × Nat)
  | [], _ => none
  | e :: rest, i =>
    if strncmp command e.command cfg.SERIALCOMMAND_MAXCOMMANDLENGTH = 0 then some (i, e.function)
    else SerialCommand.matchCommand cfg command rest (i + 1)

/-- The branch of `readSerial` taken on the terminator: tokenize, look up, call, clear. -/
def SerialCommand.dispatch (cfg : Config) (env : Handlers) (s : SerialCommand) :
    SerialCommand × List Event :=
  let r := strtok_r s.buffer (some 0) s.delim s.last
  let s1 : SerialCommand := { s with buffer := r.2.1, last := r.2.2 }
  match r.1 with
  | none => (s1.clearBuffer, [])
  | some command =>
    match SerialCommand.matchCommand cfg (s1.buffer.drop command)
        (s1.commandList.take s1.commandCount) 0 with
    | some (i, f) =>
      let h := (env.command f).run s1
      (h.1.clearBuffer, [Event.command i f h.2])
    | none =>
      match s1.defaultHandler with
      | some f =>
        let h := (env.default f (cstrAt s1.buffer command)).run s1
        (h.1.clearBuffer, [Event.default f (cstrAt s1.buffer command) h.2])
      | none => (s1.clearBuffer, [])

/-- One iteration of the `while` loop of `readSerial`, on the byte `inChar` just read. -/
def SerialCommand.readSerialByte (cfg : Config) (env : Handlers) (s : SerialCommand)
    (inChar : Nat) : SerialCommand × List Event :=
  if inChar = s.term then s.dispatch cfg env
  else if isprint inChar then
    if s.bufPos < cfg.SERIALCOMMAND_BUFFER then
      ({ s with
          buffer := (s.buffer.set s.bufPos inChar).set (s.bufPos + 1) 0
          bufPos := s.bufPos + 1 }, [])
    else (s, [])
  else (s, [])

/-- The result of a call of `readSerial`: the object, the bytes left on the source and
the handler calls made, in order. -/
structure Outcome where
  state : SerialCommand
  source : List Nat
  events : List Event

/-- The method `readSerial()`, on a source holding the bytes `source`: the loop runs
while a byte is available. -/
def SerialCommand.readSerial (cfg : Config) (env : Handlers) :
    SerialCommand → List Nat → Outcome
  | s, [] => { state := s, source := [], events := [] }
  | s, inChar :: source =>
    let r := s.readSerialByte cfg env inChar
    let o := SerialCommand.readSerial cfg env r.1 source
    { o with events := r.2 ++ o.events }

/-- The tokens of a line: its maximal substrings free of delimiters. -/
def tokens (delim : List Nat) (line : List Nat) : List (List Nat) :=
  (line.splitOnP (fun c => decide (c ∈ delim))).filter (fun t => !t.isEmpty)

/-- The line assembled so far: the first `bufPos` bytes of the buffer. -/
def SerialCommand.line (s : SerialCommand) : List Nat := s.buffer.take s.bufPos

/-- The handler body that calls `next()` `n` times, whatever it gets. -/
def Handler.nextTimes : Nat → Handler
  | 0 => Handler.ret
  | n + 1 => Handler.next (fun _ => Handler.nextTimes n)

/-- A handler body that never calls `next()`. -/
def Handlers.silent : Handlers :=
  { command := fun _ => Handler.ret, default := fun _ _ => Handler.ret }

/-- The invariant of the object: the buffer has `SERIALCOMMAND_BUFFER + 1` bytes (the
capacity of the line and the NUL after it), the line is within the capacity,
NUL-terminated and made of printable bytes, the table has `commandCount` entries, and
the terminator and the delimiter are the ones the constructor sets. -/
structure SerialCommand.Inv (cfg : Config) (s : SerialCommand) : Prop where
  size : s.buffer.length = cfg.SERIALCOMMAND_BUFFER + 1
  bound : s.bufPos ≤ cfg.SERIALCOMMAND_BUFFER
  nul : s.buffer.getD s.bufPos 1 = 0
  printable : ∀ c ∈ s.line, isprint c = true
  count : s.commandCount = s.commandList.length
  term_eq : s.term = 10
  delim_eq : s.delim = [32]

def remaining (delim : List Nat) (mem : List Nat) (last : Option Nat) : List (List Nat) :=
  match last with
  | none => []
  | some p => tokens delim (cstrAt mem p)

/-- The tokens that calls of `next()` are still to return. -/
def SerialCommand.pending (s : SerialCommand) : List (List Nat) :=
  remaining s.delim s.buffer s.last

/-- What a handler body gets from its calls of `next()` when the tokens `ts` are pending. -/
def Handler.observe : Handler → List (List Nat) → List (Option (List Nat))
  | Handler.ret, _ => []
  | Handler.next k, ts => ts.head? :: (k ts.head?).observe ts.tail

/-- The table lookup of `readSerial` for the token `tok`. -/
def SerialCommand.lookup (cfg : Config) (s : SerialCommand) (tok : List Nat) :
    Option (Nat × Nat) :=
  SerialCommand.matchCommand cfg tok (s.commandList.take s.commandCount) 0

/-- The handler calls a completed line with the tokens `ts` leads to. -/
def SerialCommand.dispatchSpec (cfg : Config) (env : Handlers) (s : SerialCommand) :
    List (List Nat) → List Event
  | [] => []
  | c :: args =>
    match s.lookup cfg c with
    | some (i, f) => [Event.command i f ((env.command f).observe args)]
    | none =>
      match s.defaultHandler with
      | some f => [Event.default f c ((env.default f c).observe args)]
      | none => []

/-- Two objects with the same table, default handler, delimiters and terminator. -/
def SerialCommand.SameConfig (a b : SerialCommand) : Prop :=
  a.commandList = b.commandList ∧ a.commandCount = b.commandCount ∧
  a.defaultHandler = b.defaultHandler ∧ a.delim = b.delim ∧ a.term = b.term

/-- The results of `m` calls of `next()` when the tokens `args` are pending: the first
`m` of them, then null results. -/
def nextResults (args : List (List Nat)) (m : Nat) : List (Option (List Nat)) :=
  (args.map some).take m ++ List.replicate (m - args.length) none

/-- The states the program can reach: from the constructor (on a buffer of
`SERIALCOMMAND_BUFFER + 1` bytes) by calls of `addCommand`, of `setDefaultHandler`
and by iterations of the loop of `readSerial`. -/
inductive SerialCommand.Reachable (cfg : Config) (env : Handlers) : SerialCommand → Prop
  | new (raw : List Nat) (h : raw.length = cfg.SERIALCOMMAND_BUFFER + 1) :
      SerialCommand.Reachable cfg env (SerialCommand.new raw)
  | addCommand (s : SerialCommand) (command : List Nat) (function : Nat)
      (h : SerialCommand.Reachable cfg env s) :
      SerialCommand.Reachable cfg env (s.addCommand cfg command function)
  | setDefaultHandler (s : SerialCommand) (function : Option Nat)
      (h : SerialCommand.Reachable cfg env s) :
      SerialCommand.Reachable cfg env (s.setDefaultHandler function)
  | readSerialByte (s : SerialCommand) (inChar : Nat)
      (h : SerialCommand.Reachable cfg env s) :
      SerialCommand.Reachable cfg env (s.readSerialByte cfg env inChar).1

/-- The configuration of the examples: a line buffer of 8 characters and command names
of 8 characters. -/
def exampleConfig : Config :=
  { SERIALCOMMAND_BUFFER := 8, SERIALCOMMAND_MAXCOMMANDLENGTH := 8 }

/-- The dispatcher of the examples: the command `LED` with the handler 1, the command
`SET` with the handler 3, and the default handler 2. -/
def ledDispatcher : SerialCommand :=
  (((SerialCommand.new (List.replicate 9 0)).addCommand exampleConfig [76, 69, 68] 1).addCommand
    exampleConfig [83, 69, 84] 3).setDefaultHandler (some 2)

/-- Handlers that call `next()` three times. -/
def Handlers.threeNexts : Handlers :=
  { command := fun _ => Handler.nextTimes 3, default := fun _ _ => Handler.nextTimes 3 }

/-- A dispatcher with the names `ABCDEFGH` (handler 1) and then `ABCDEFGHIJ` (handler 2)
registered. -/
def shadowedDispatcher : SerialCommand :=
  ((SerialCommand.new (List.replicate 9 0)).addCommand exampleConfig
    [65, 66, 67, 68, 69, 70, 71, 72] 1).addCommand exampleConfig
    [65, 66, 67, 68, 69, 70, 71, 72, 73, 74] 2

/-- The example dispatcher after it has read the bytes `xs`. -/
def ledDispatcherAfter (env : Handlers) (xs : List Nat) : SerialCommand :=
  (ledDispatcher.readSerial exampleConfig env xs).state

/-- A configuration with a line buffer of 2 characters. -/
def tinyConfig : Config :=
  { SERIALCOMMAND_BUFFER := 2, SERIALCOMMAND_MAXCOMMANDLENGTH := 8 }

/-- A dispatcher of `tinyConfig` whose line buffer is full: it has read `AB`. -/
def fullDispatcher : SerialCommand :=
  (((SerialCommand.new [7, 7, 7]).readSerialByte tinyConfig Handlers.silent 65).1.readSerialByte
    tinyConfig Handlers.silent 66).1

/-- The configuration of the library as distributed: a line buffer of 32 characters. -/
def defaultConfig : Config :=
  { SERIALCOMMAND_BUFFER := 32, SERIALCOMMAND_MAXCOMMANDLENGTH := 8 }

/-- A dispatcher of `defaultConfig` with the command `SET` (handler 3) that has read
the bytes `SET 10 20`, with handlers that call `next()` three times. -/
def setDispatcher : SerialCommand :=
  (((SerialCommand.new (List.replicate 33 0)).addCommand defaultConfig [83, 69, 84] 3).readSerial
    defaultConfig Handlers.threeNexts [83, 69, 84, 32, 49, 48, 32, 50, 48]).state

/-- The dispatch cycles of a run of `readSerial`: the objects in which the terminator
branch is entered, one for each time it is entered, in order. -/
def SerialCommand.dispatchCycles (cfg : Config) (env : Handlers) :
    SerialCommand → List Nat → List SerialCommand
  | _, [] => []
  | s, inChar :: source =>
    (if inChar = s.term then [s] else []) ++
      SerialCommand.dispatchCycles cfg env (s.readSerialByte cfg env inChar).1 source

/-- The C library function `toupper` in the "C" locale. -/
def toupper (c : Nat) : Nat := if 97 ≤ c ∧ c ≤ 122 then c - 32 else c

/-- The results of the calls of `next()` that a handler call records. -/
def Event.nexts : Event → List (Option (List Nat))
  | Event.command _ _ r => r
  | Event.default _ _ r => r

/-- A saved pointer of `strtok_r` that, when it is set, is past the first byte. -/
def lastPastStart (last : Option Nat) : Prop := ∀ p, last = some p → 0 < p

/-- Handlers that call `next()` once. -/
def Handlers.oneNext : Handlers :=
  { command := fun _ => Handler.nextTimes 1, default := fun _ _ => Handler.nextTimes 1 }

/-- A dispatcher with the name `GO` registered twice, with the handlers 1 and 2, that
has read the bytes `GO`. -/
def goDispatcher : SerialCommand :=
  ((((SerialCommand.new (List.replicate 9 0)).addCommand exampleConfig [71, 79] 1).addCommand
    exampleConfig [71, 79] 2).readSerial exampleConfig Handlers.silent [71, 79]).state

/-- The method `available()` of the byte source `bluetooth`, whose waiting bytes are
`source`, oldest first: the number of bytes waiting. -/
def Source.available (source : List Nat) : Nat := source.length

/-- The method `read()` of the byte source: the oldest waiting byte, and the source
without it; with no byte waiting the result -1, which is 0xFF as a `char`. -/
def Source.read (source : List Nat) : Nat × List Nat :=
  match source with
  | [] => (255, [])
  | c :: rest => (c, rest)

/-- The record of one iteration of the `while` loop of `readSerial`: the byte read, the
object before and after the body, and the handler calls of the body. -/
structure Iteration where
  inChar : Nat
  before : SerialCommand
  after : SerialCommand
  events : List Event

/-- A call of `readSerial` that has returned: the object, the bytes left waiting on the
source, and the iterations of the loop, in order. -/
structure Finished where
  state : SerialCommand
  source : List Nat
  trace : List Iteration

/-- The method `readSerial()` as the loop it is: while `available()` is positive, a byte
is read and the body runs.  A handler call `e` of the body may write the bytes `feed e`
to the source (a handler that sends to the link the dispatcher reads); they are
waiting when `available()` is asked next.  The loop is run for at most `fuel`
iterations: `none` when it has not returned by then. -/
def SerialCommand.readSerialLoop (cfg : Config) (env : Handlers) (feed : Event → List Nat) :
    Nat → SerialCommand → List Nat → Option Finished
  | 0, s, source =>
    if 0 < Source.available source then none
    else some { state := s, source := source, trace := [] }
  | fuel + 1, s, source =>
    if 0 < Source.available source then
      match SerialCommand.readSerialLoop cfg env feed fuel
          (s.readSerialByte cfg env (Source.read source).1).1
          ((Source.read source).2 ++
            (s.readSerialByte cfg env (Source.read source).1).2.flatMap feed) with
      | none => none
      | some o =>
        some { o with
          trace :=
            { inChar := (Source.read source).1
              before := s
              after := (s.readSerialByte cfg env (Source.read source).1).1
              events := (s.readSerialByte cfg env (Source.read source).1).2 } :: o.trace }
    else some { state := s, source := source, trace := [] }

/-- The iterations of the loop on the bytes `xs` when no handler writes to the source. -/
def SerialCommand.iterations (cfg : Config) (env : Handlers) :
    SerialCommand → List Nat → List Iteration
  | _, [] => []
  | s, c :: xs =>
    { inChar := c
      before := s
      after := (s.readSerialByte cfg env c).1
      events := (s.readSerialByte cfg env c).2 } ::
      SerialCommand.iterations cfg env (s.readSerialByte cfg env c).1 xs

/-- A handler environment effect on the source: the default handler answers every call
by sending the line `X` to the source it is read from. -/
def echoFeed : Event → List Nat
  | Event.default _ _ _ => [88, 10]
  | Event.command _ _ _ => []

/-- A dispatcher with no command and the default handler 2. -/
def echoDispatcher : SerialCommand :=
  (SerialCommand.new (List.replicate 9 0)).setDefaultHandler (some 2)

/-! ## Lemmas -/

theorem tokens_nil (delim : List Nat) : tokens delim [] = [] := by
  simp [tokens]

theorem tokens_cons_delim {delim : List Nat} {c : Nat} (h : c ∈ delim) (l : List Nat) :
    tokens delim (c :: l) = tokens delim l := by
  simp [tokens, List.splitOnP_cons, h]

theorem tokens_single {delim t : List Nat} (ht : t ≠ []) (hfree : ∀ c ∈ t, c ∉ delim) :
    tokens delim t = [t] := by
  unfold tokens
  rw [List.splitOnP_eq_single]
  · cases t with
    | nil => exact absurd rfl ht
    | cons a t => simp
  · intro x hx; simpa using hfree x hx

theorem tokens_first {delim t : List Nat} (ht : t ≠ []) (hfree : ∀ c ∈ t, c ∉ delim)
    {d : Nat} (hd : d ∈ delim) (l : List Nat) :
    tokens delim (t ++ d :: l) = t :: tokens delim l := by
  unfold tokens
  rw [List.splitOnP_first]
  · cases t with
    | nil => exact absurd rfl ht
    | cons a t => simp
  · intro x hx; simpa using hfree x hx
  · simpa using hd

theorem cstr_nil : cstr [] = [] := rfl

theorem cstr_cons_zero (m : List Nat) : cstr (0 :: m) = [] := by
  simp [cstr]

theorem cstr_cons_ne {c : Nat} (h : c ≠ 0) (m : List Nat) : cstr (c :: m) = c :: cstr m := by
  simp [cstr, h]

theorem cstr_append {t : List Nat} (h : ∀ c ∈ t, c ≠ 0) (m : List Nat) :
    cstr (t ++ m) = t ++ cstr m := by
  induction t with
  | nil => rfl
  | cons a t ih =>
    have ha : a ≠ 0 := h a (List.mem_cons_self _ _)
    rw [List.cons_append, cstr_cons_ne ha, ih (fun c hc => h c (List.mem_cons_of_mem _ hc)),
      List.cons_append]

theorem cstr_of_ne {t : List Nat} (h : ∀ c ∈ t, c ≠ 0) : cstr t = t := by
  have := cstr_append h []
  simpa [cstr_nil] using this

theorem cstr_ne_zero (m : List Nat) : ∀ c ∈ cstr m, c ≠ 0 := by
  intro c hc
  have := List.mem_takeWhile_imp hc
  simpa using this

theorem strspn_tokens (delim m : List Nat) :
    tokens delim (cstr (m.drop (strspn m delim))) = tokens delim (cstr m) := by
  induction m with
  | nil => rfl
  | cons c m ih =>
    unfold strspn
    split
    · rename_i h
      rw [List.drop_succ_cons, ih, cstr_cons_ne h.1, tokens_cons_delim h.2]
    · rfl

theorem strspn_head (delim m : List Nat) :
    (m.drop (strspn m delim)).headD 0 = 0 ∨ (m.drop (strspn m delim)).headD 0 ∉ delim := by
  induction m with
  | nil => left; rfl
  | cons c m ih =>
    unfold strspn
    split
    · rw [List.drop_succ_cons]; exact ih
    · rename_i h
      simp only [List.drop_zero, List.headD_cons]
      by_cases hc : c = 0
      · exact Or.inl hc
      · right; intro hm; exact h ⟨hc, hm⟩

theorem strcspn_split (delim m : List Nat) :
    (∀ c ∈ m.take (strcspn m delim), c ≠ 0 ∧ c ∉ delim) ∧
    ((m.drop (strcspn m delim)).headD 0 = 0 ∨ (m.drop (strcspn m delim)).headD 0 ∈ delim) := by
  induction m with
  | nil => exact ⟨by simp, Or.inl rfl⟩
  | cons c m ih =>
    unfold strcspn
    split
    · rename_i h
      refine ⟨by simp, ?_⟩
      simpa using h
    · rename_i h
      rw [List.take_succ_cons, List.drop_succ_cons]
      refine ⟨?_, ih.2⟩
      intro x hx
      rcases List.mem_cons.1 hx with rfl | hx
      · exact ⟨fun h0 => h (Or.inl h0), fun hm => h (Or.inr hm)⟩
      · exact ih.1 x hx

theorem strcspn_le (delim m : List Nat) : strcspn m delim ≤ m.length := by
  induction m with
  | nil => simp [strcspn]
  | cons c m ih =>
    unfold strcspn
    split <;> simp [ih]

theorem strcspn_pos {delim : List Nat} {c : Nat} {m : List Nat} (h0 : c ≠ 0) (hd : c ∉ delim) :
    0 < strcspn (c :: m) delim := by
  unfold strcspn
  rw [if_neg (by intro h; rcases h with h | h; exact h0 h; exact hd h)]
  exact Nat.succ_pos _

theorem cstr_headD_zero {r : List Nat} (h : r.headD 0 = 0) : cstr r = [] := by
  cases r with
  | nil => rfl
  | cons c r =>
    have hc : c = 0 := by simpa using h
    subst hc
    exact cstr_cons_zero r

theorem getD_eq_headD_drop (mem : List Nat) (q : Nat) : mem.getD q 0 = (mem.drop q).headD 0 := by
  simp [List.getD_eq_getElem?_getD, List.headD_eq_head?_getD]

/-- The token scan of `strtok_r`, on the memory `m` from the start of a token on. -/
theorem scan_token (delim m : List Nat) (h0 : m.headD 0 ≠ 0) (hd : m.headD 0 ∉ delim) :
    ((m.drop (strcspn m delim)).headD 0 = 0 →
      cstr m = m.take (strcspn m delim) ∧ tokens delim (cstr m) = [m.take (strcspn m delim)]) ∧
    ((m.drop (strcspn m delim)).headD 0 ≠ 0 →
      cstr (m.set (strcspn m delim) 0) = m.take (strcspn m delim) ∧
      tokens delim (cstr m) =
        m.take (strcspn m delim) :: tokens delim (cstr (m.drop (strcspn m delim + 1)))) := by
  obtain ⟨hfree, hhead⟩ := strcspn_split delim m
  have hle := strcspn_le delim m
  have hpos : 0 < strcspn m delim := by
    cases m with
    | nil => exact absurd rfl h0
    | cons c m => exact strcspn_pos (by simpa using h0) (by simpa using hd)
  generalize strcspn m delim = n at hfree hhead hle hpos
  have hsplit : m = m.take n ++ m.drop n := (List.take_append_drop n m).symm
  have hlen : (m.take n).length = n := List.length_take_of_le hle
  have htne : m.take n ≠ [] := by
    intro h; rw [h] at hlen; simp at hlen; omega
  have hne : ∀ c ∈ m.take n, c ≠ 0 := fun c hc => (hfree c hc).1
  have hnd : ∀ c ∈ m.take n, c ∉ delim := fun c hc => (hfree c hc).2
  constructor
  · intro hz
    have h1 : cstr m = m.take n := by
      conv_lhs => rw [hsplit]
      rw [cstr_append hne, cstr_headD_zero hz, List.append_nil]
    exact ⟨h1, by rw [h1]; exact tokens_single htne hnd⟩
  · intro hnz
    cases hr : m.drop n with
    | nil => rw [hr] at hnz; exact absurd rfl hnz
    | cons d r =>
      rw [hr] at hnz hhead
      have hd0 : d ≠ 0 := by simpa using hnz
      have hdd : d ∈ delim := by
        rcases hhead with h | h
        · exact absurd h hnz
        · simpa using h
      have hm : m = m.take n ++ d :: r := by rw [← hr]; exact hsplit
      have hdrop : m.drop (n + 1) = r := by
        rw [← List.drop_drop, hr]; rfl
      constructor
      · have : m.set n 0 = m.take n ++ 0 :: r := by
          conv_lhs => rw [hm]
          rw [List.set_append_right _ _ (by omega), hlen]
          simp
        rw [this, cstr_append hne, cstr_cons_zero, List.append_nil]
      · rw [hdrop]
        conv_lhs => rw [hm]
        rw [cstr_append hne, cstr_cons_ne hd0, tokens_first htne hnd hdd]

/-- What `strtok_r` returns, in terms of the tokens of the string it is started on:
the first token, and the other tokens are left for the following calls. -/
theorem strtok_r_start (mem delim : List Nat) (p : Nat) (last : Option Nat) :
    (strtok_r mem (some p) delim last).1.map (cstrAt (strtok_r mem (some p) delim last).2.1) =
      (tokens delim (cstrAt mem p)).head? ∧
    remaining delim (strtok_r mem (some p) delim last).2.1
      (strtok_r mem (some p) delim last).2.2 = (tokens delim (cstrAt mem p)).tail := by
  have hsp := strspn_tokens delim (mem.drop p)
  have hhd := strspn_head delim (mem.drop p)
  rw [List.drop_drop] at hsp hhd
  simp only [strtok_r]
  generalize p + strspn (mem.drop p) delim = q at hsp hhd
  unfold cstrAt
  rw [← hsp]
  by_cases hq : mem.getD q 0 = 0
  · rw [if_pos hq]
    rw [getD_eq_headD_drop] at hq
    simp [cstr_headD_zero hq, tokens_nil, remaining]
  · rw [if_neg hq]
    rw [getD_eq_headD_drop] at hq
    have hnd : (mem.drop q).headD 0 ∉ delim := by
      rcases hhd with h | h
      · exact absurd h hq
      · exact h
    obtain ⟨hA, hB⟩ := scan_token delim (mem.drop q) hq hnd
    rw [List.drop_drop] at hA hB
    by_cases he : mem.getD (q + strcspn (mem.drop q) delim) 0 = 0
    · rw [if_pos he]
      rw [getD_eq_headD_drop] at he
      obtain ⟨h1, h2⟩ := hA he
      rw [h2]
      simp only [Option.map_some', List.head?_cons, List.tail_cons, remaining, cstrAt]
      rw [h1]
      simp
    · rw [if_neg he]
      rw [getD_eq_headD_drop] at he
      obtain ⟨h1, h2⟩ := hB he
      rw [h2]
      simp only [Option.map_some', List.head?_cons, List.tail_cons, remaining, cstrAt]
      rw [List.drop_set, if_neg (by omega), Nat.add_sub_cancel_left, h1]
      rw [List.drop_set_of_lt _ _ (by omega)]
      refine ⟨rfl, ?_⟩
      rw [List.drop_drop, Nat.add_assoc]

theorem strtok_r_next (mem delim : List Nat) (last : Option Nat) :
    (strtok_r mem none delim last).1.map (cstrAt (strtok_r mem none delim last).2.1) =
      (remaining delim mem last).head? ∧
    remaining delim (strtok_r mem none delim last).2.1 (strtok_r mem none delim last).2.2 =
      (remaining delim mem last).tail := by
  cases last with
  | none => simp [strtok_r, remaining]
  | some p => exact strtok_r_start mem delim p none

theorem strtok_r_length (mem delim : List Nat) (s last : Option Nat) :
    (strtok_r mem s delim last).2.1.length = mem.length := by
  unfold strtok_r
  split
  · rfl
  · dsimp only
    split
    · rfl
    · split
      · rfl
      · simp

theorem SameConfig_refl (s : SerialCommand) : s.SameConfig s := ⟨rfl, rfl, rfl, rfl, rfl⟩

theorem SameConfig_trans {a b c : SerialCommand} (h1 : a.SameConfig b) (h2 : b.SameConfig c) :
    a.SameConfig c :=
  ⟨h1.1.trans h2.1, h1.2.1.trans h2.2.1, h1.2.2.1.trans h2.2.2.1,
    h1.2.2.2.1.trans h2.2.2.2.1, h1.2.2.2.2.trans h2.2.2.2.2⟩

theorem next_spec (s : SerialCommand) :
    s.next.1.map (cstrAt s.next.2.buffer) = s.pending.head? ∧
    s.next.2.pending = s.pending.tail ∧
    s.SameConfig s.next.2 ∧ s.next.2.buffer.length = s.buffer.length ∧
    s.next.2.bufPos = s.bufPos := by
  obtain ⟨h1, h2⟩ := strtok_r_next s.buffer s.delim s.last
  exact ⟨h1, h2, ⟨rfl, rfl, rfl, rfl, rfl⟩, strtok_r_length _ _ _ _, rfl⟩

theorem run_spec (h : Handler) (s : SerialCommand) :
    (h.run s).2 = h.observe s.pending ∧
    s.SameConfig (h.run s).1 ∧ (h.run s).1.buffer.length = s.buffer.length ∧
    (h.run s).1.bufPos = s.bufPos := by
  induction h generalizing s with
  | ret => exact ⟨rfl, SameConfig_refl s, rfl, rfl⟩
  | next k ih =>
    obtain ⟨h1, h2, h3, h4, h5⟩ := next_spec s
    simp only [Handler.run, Handler.observe]
    obtain ⟨i1, i2, i3, i4⟩ := ih (s.next.1.map (cstrAt s.next.2.buffer)) s.next.2
    refine ⟨?_, SameConfig_trans h3 i2, i3.trans h4, i4.trans h5⟩
    rw [i1, h2, h1]

theorem strncmp_cstr (a b : List Nat) (n : Nat) : strncmp (cstr a) b n = strncmp a b n := by
  induction n generalizing a b with
  | zero => simp [strncmp]
  | succ n ih =>
    cases a with
    | nil => rfl
    | cons c a =>
      by_cases hc : c = 0
      · subst hc
        rw [cstr_cons_zero]
        simp [strncmp]
      · rw [cstr_cons_ne hc]
        simp only [strncmp, List.headD_cons, List.tail_cons]
        rw [ih]

theorem strncmp_eq_zero_iff (a b : List Nat) (n : Nat) :
    strncmp a b n = 0 ↔ (cstr a).take n = (cstr b).take n := by
  induction n generalizing a b with
  | zero => simp [strncmp]
  | succ n ih =>
    cases a with
    | nil =>
      cases b with
      | nil => simp [strncmp]
      | cons d b =>
        by_cases hd : d = 0
        · subst hd; simp [strncmp, cstr_cons_zero, cstr_nil]
        · have : (0 : Nat) ≠ d := fun h => hd h.symm
          simp [strncmp, cstr_cons_ne hd, cstr_nil, this]
          omega
    | cons c a =>
      cases b with
      | nil =>
        by_cases hc : c = 0
        · subst hc; simp [strncmp, cstr_cons_zero, cstr_nil]
        · simp [strncmp, cstr_cons_ne hc, cstr_nil, hc]
      | cons d b =>
        by_cases hcd : c = d
        · subst hcd
          by_cases hc : c = 0
          · subst hc; simp [strncmp, cstr_cons_zero]
          · simp [strncmp, cstr_cons_ne hc, hc, ih]
        · by_cases hc : c = 0
          · subst hc
            have hd : d ≠ 0 := fun h => hcd h.symm
            simp [strncmp, cstr_cons_zero, cstr_cons_ne hd, hcd]
            omega
          · by_cases hd : d = 0
            · subst hd
              simp [strncmp, cstr_cons_zero, cstr_cons_ne hc, hcd]
            · simp [strncmp, cstr_cons_ne hc, cstr_cons_ne hd, hcd]
              omega

theorem matchCommand_cstr (cfg : Config) (m : List Nat) (l : List SerialCommandCallback)
    (i : Nat) :
    SerialCommand.matchCommand cfg (cstr m) l i = SerialCommand.matchCommand cfg m l i := by
  induction l generalizing i with
  | nil => rfl
  | cons e l ih => simp only [SerialCommand.matchCommand, strncmp_cstr, ih]

theorem cstrAt_zero (mem : List Nat) : cstrAt mem 0 = cstr mem := rfl

/-- The handler calls of the terminator branch are those of the tokens of the string
in the buffer. -/
theorem dispatch_events (cfg : Config) (env : Handlers) (s : SerialCommand) :
    (s.dispatch cfg env).2 = s.dispatchSpec cfg env (tokens s.delim (cstr s.buffer)) := by
  obtain ⟨h1, h2⟩ := strtok_r_start s.buffer s.delim 0 s.last
  rw [cstrAt_zero] at h1 h2
  unfold SerialCommand.dispatch
  generalize strtok_r s.buffer (some 0) s.delim s.last = r at h1 h2
  obtain ⟨tok, mem, last⟩ := r
  dsimp only at h1 h2 ⊢
  cases tok with
  | none =>
    cases hts : tokens s.delim (cstr s.buffer) with
    | nil => rfl
    | cons c args => rw [hts] at h1; simp at h1
  | some p =>
    cases hts : tokens s.delim (cstr s.buffer) with
    | nil => rw [hts] at h1; simp at h1
    | cons c args =>
      rw [hts] at h1 h2
      have hc : cstrAt mem p = c := by simpa using h1
      have hargs : remaining s.delim mem last = args := by simpa using h2
      dsimp only [SerialCommand.dispatchSpec, SerialCommand.lookup]
      rw [← hc]
      unfold cstrAt
      rw [matchCommand_cstr]
      cases SerialCommand.matchCommand cfg (mem.drop p)
          (s.commandList.take s.commandCount) 0 with
      | some x =>
        obtain ⟨i, f⟩ := x
        dsimp only
        rw [(run_spec _ _).1]
        simp only [SerialCommand.pending, hargs]
      | none =>
        dsimp only
        cases s.defaultHandler with
        | none => rfl
        | some f =>
          dsimp only
          rw [(run_spec _ _).1]
          simp only [SerialCommand.pending, hargs]

theorem clearBuffer_spec (s : SerialCommand) :
    s.SameConfig s.clearBuffer ∧ s.clearBuffer.bufPos = 0 ∧
    s.clearBuffer.buffer.length = s.buffer.length ∧
    (0 < s.buffer.length → s.clearBuffer.buffer.getD 0 1 = 0) := by
  refine ⟨⟨rfl, rfl, rfl, rfl, rfl⟩, rfl, by simp [SerialCommand.clearBuffer], ?_⟩
  intro h
  cases hb : s.buffer with
  | nil => rw [hb] at h; simp at h
  | cons c m => simp [SerialCommand.clearBuffer, hb]

/-- The object after the terminator branch: the line is empty, nothing else of the
configuration has changed. -/
theorem dispatch_state (cfg : Config) (env : Handlers) (s : SerialCommand) :
    s.SameConfig (s.dispatch cfg env).1 ∧ (s.dispatch cfg env).1.bufPos = 0 ∧
    (s.dispatch cfg env).1.buffer.length = s.buffer.length ∧
    (0 < s.buffer.length → (s.dispatch cfg env).1.buffer.getD 0 1 = 0) := by
  have key : ∀ t : SerialCommand, s.SameConfig t → t.buffer.length = s.buffer.length →
      s.SameConfig t.clearBuffer ∧ t.clearBuffer.bufPos = 0 ∧
      t.clearBuffer.buffer.length = s.buffer.length ∧
      (0 < s.buffer.length → t.clearBuffer.buffer.getD 0 1 = 0) := by
    intro t h1 h2
    obtain ⟨c1, c2, c3, c4⟩ := clearBuffer_spec t
    exact ⟨SameConfig_trans h1 c1, c2, c3.trans h2, fun h => c4 (h2 ▸ h)⟩
  have hlen := strtok_r_length s.buffer s.delim (some 0) s.last
  unfold SerialCommand.dispatch
  generalize strtok_r s.buffer (some 0) s.delim s.last = r at hlen
  obtain ⟨tok, mem, last⟩ := r
  dsimp only at hlen ⊢
  have hs1 : s.SameConfig { s with buffer := mem, last := last } := ⟨rfl, rfl, rfl, rfl, rfl⟩
  cases tok with
  | none => exact key _ hs1 hlen
  | some p =>
    dsimp only
    split
    · rename_i i f _
      obtain ⟨_, r2, r3, _⟩ := run_spec (env.command f) { s with buffer := mem, last := last }
      exact key _ (SameConfig_trans hs1 r2) (r3.trans hlen)
    · split
      · rename_i f _
        obtain ⟨_, r2, r3, _⟩ := run_spec
          (env.default f (cstrAt mem p)) { s with buffer := mem, last := last }
        exact key _ (SameConfig_trans hs1 r2) (r3.trans hlen)
      · exact key _ hs1 hlen

theorem isprint_ne_zero {c : Nat} (h : isprint c = true) : c ≠ 0 := by
  simp [isprint] at h
  omega

theorem isprint_ne_newline {c : Nat} (h : isprint c = true) : c ≠ 10 := by
  simp [isprint] at h
  omega

theorem Inv_line_length {cfg : Config} {s : SerialCommand} (h : s.Inv cfg) :
    s.line.length = s.bufPos := by
  unfold SerialCommand.line
  rw [List.length_take]
  have := h.size; have := h.bound
  omega

/-- In a state of the invariant the C string in the buffer is the line. -/
theorem Inv_cstr {cfg : Config} {s : SerialCommand} (h : s.Inv cfg) : cstr s.buffer = s.line := by
  have hsplit : s.buffer = s.line ++ s.buffer.drop s.bufPos :=
    (List.take_append_drop s.bufPos s.buffer).symm
  have hz : (s.buffer.drop s.bufPos).headD 0 = 0 := by
    have h1 := h.nul
    have h2 := getD_eq_headD_drop s.buffer s.bufPos
    have hlt : s.bufPos < s.buffer.length := by have := h.size; have := h.bound; omega
    rw [← h2, List.getD_eq_getElem _ _ hlt]
    rw [List.getD_eq_getElem _ _ hlt] at h1
    exact h1
  conv_lhs => rw [hsplit]
  rw [cstr_append (fun c hc => isprint_ne_zero (h.printable c hc)), cstr_headD_zero hz,
    List.append_nil]

theorem Inv_new (cfg : Config) (raw : List Nat)
    (h : raw.length = cfg.SERIALCOMMAND_BUFFER + 1) : (SerialCommand.new raw).Inv cfg where
  size := by simp [SerialCommand.new, SerialCommand.clearBuffer, h]
  bound := Nat.zero_le _
  nul := by
    cases raw with
    | nil => simp at h
    | cons c m => simp [SerialCommand.new, SerialCommand.clearBuffer]
  printable := by simp [SerialCommand.new, SerialCommand.clearBuffer, SerialCommand.line]
  count := rfl
  term_eq := rfl
  delim_eq := rfl

theorem Inv_addCommand {cfg : Config} {s : SerialCommand} (h : s.Inv cfg) (command : List Nat)
    (function : Nat) : (s.addCommand cfg command function).Inv cfg where
  size := h.size
  bound := h.bound
  nul := h.nul
  printable := h.printable
  count := by simp [SerialCommand.addCommand, h.count]
  term_eq := h.term_eq
  delim_eq := h.delim_eq

theorem Inv_setDefaultHandler {cfg : Config} {s : SerialCommand} (h : s.Inv cfg)
    (function : Option Nat) : (s.setDefaultHandler function).Inv cfg where
  size := h.size
  bound := h.bound
  nul := h.nul
  printable := h.printable
  count := h.count
  term_eq := h.term_eq
  delim_eq := h.delim_eq

theorem Inv_dispatch {cfg : Config} (env : Handlers) {s : SerialCommand} (h : s.Inv cfg) :
    (s.dispatch cfg env).1.Inv cfg := by
  obtain ⟨⟨c1, c2, c3, c4, c5⟩, hp, hl, hz⟩ := dispatch_state cfg env s
  have hpos : 0 < s.buffer.length := by rw [h.size]; exact Nat.succ_pos _
  exact
    { size := hl.trans h.size
      bound := by rw [hp]; exact Nat.zero_le _
      nul := by rw [hp]; exact hz hpos
      printable := by simp [SerialCommand.line, hp]
      count := by rw [← c1, ← c2]; exact h.count
      term_eq := by rw [← c5]; exact h.term_eq
      delim_eq := by rw [← c4]; exact h.delim_eq }

theorem take_set_of_le (a : Nat) {n m : Nat} (l : List Nat) (h : m ≤ n) :
    (l.set n a).take m = l.take m := by
  apply List.ext_getElem?
  intro i
  rw [List.getElem?_take, List.getElem?_take]
  split
  · rw [List.getElem?_set_ne (by omega)]
  · rfl

/-- Storing a byte and the NUL after it extends the line by that byte. -/
theorem take_store (mem : List Nat) (n c : Nat) (h : n < mem.length) :
    ((mem.set n c).set (n + 1) 0).take (n + 1) = mem.take n ++ [c] := by
  rw [take_set_of_le _ _ (Nat.le_refl _), List.take_succ, take_set_of_le _ _ (Nat.le_refl _)]
  simp [h]

theorem getD_store (mem : List Nat) (n c : Nat) (h : n + 1 < mem.length) :
    ((mem.set n c).set (n + 1) 0).getD (n + 1) 1 = 0 := by
  rw [List.getD_eq_getElem _ _ (by simpa using h)]
  simp

/-- The branch of `readSerialByte` that stores a printable byte. -/
theorem readSerialByte_store (cfg : Config) (env : Handlers) (s : SerialCommand) (c : Nat)
    (hc : c ≠ s.term) (hp : isprint c = true) (hb : s.bufPos < cfg.SERIALCOMMAND_BUFFER) :
    s.readSerialByte cfg env c =
      ({ s with
          buffer := (s.buffer.set s.bufPos c).set (s.bufPos + 1) 0
          bufPos := s.bufPos + 1 }, []) := by
  simp [SerialCommand.readSerialByte, hc, hp, hb]

/-- The branches of `readSerialByte` that drop the byte. -/
theorem readSerialByte_drop (cfg : Config) (env : Handlers) (s : SerialCommand) (c : Nat)
    (hc : c ≠ s.term) (h : isprint c = false ∨ cfg.SERIALCOMMAND_BUFFER ≤ s.bufPos) :
    s.readSerialByte cfg env c = (s, []) := by
  unfold SerialCommand.readSerialByte
  rw [if_neg hc]
  rcases h with h | h
  · simp [h]
  · have : ¬ s.bufPos < cfg.SERIALCOMMAND_BUFFER := by omega
    simp [this]

theorem readSerialByte_term (cfg : Config) (env : Handlers) (s : SerialCommand) :
    s.readSerialByte cfg env s.term = s.dispatch cfg env := by
  simp [SerialCommand.readSerialByte]

theorem Inv_store {cfg : Config} {s : SerialCommand} (h : s.Inv cfg) (c : Nat)
    (hp : isprint c = true) (hb : s.bufPos < cfg.SERIALCOMMAND_BUFFER) :
    SerialCommand.Inv cfg { s with
      buffer := (s.buffer.set s.bufPos c).set (s.bufPos + 1) 0
      bufPos := s.bufPos + 1 } where
  size := by simp [h.size]
  bound := hb
  nul := getD_store _ _ _ (by rw [h.size]; omega)
  printable := by
    intro x hx
    have : x ∈ s.buffer.take s.bufPos ++ [c] := by
      rw [← take_store _ _ _ (by rw [h.size]; omega)]
      exact hx
    rcases List.mem_append.1 this with hx | hx
    · exact h.printable x hx
    · rw [List.mem_singleton.1 hx]; exact hp
  count := h.count
  term_eq := h.term_eq
  delim_eq := h.delim_eq

theorem Inv_readSerialByte {cfg : Config} (env : Handlers) {s : SerialCommand} (h : s.Inv cfg)
    (c : Nat) : (s.readSerialByte cfg env c).1.Inv cfg := by
  by_cases hc : c = s.term
  · rw [hc, readSerialByte_term]; exact Inv_dispatch env h
  · by_cases hp : isprint c = true
    · by_cases hb : s.bufPos < cfg.SERIALCOMMAND_BUFFER
      · rw [readSerialByte_store cfg env s c hc hp hb]; exact Inv_store h c hp hb
      · rw [readSerialByte_drop cfg env s c hc (Or.inr (by omega))]; exact h
    · rw [readSerialByte_drop cfg env s c hc (Or.inl (by simpa using hp))]; exact h

theorem Inv_readSerial {cfg : Config} (env : Handlers) {s : SerialCommand} (h : s.Inv cfg)
    (source : List Nat) : (s.readSerial cfg env source).state.Inv cfg := by
  induction source generalizing s with
  | nil => exact h
  | cons c source ih => exact ih (Inv_readSerialByte env h c)

theorem readSerial_append (cfg : Config) (env : Handlers) (s : SerialCommand)
    (xs ys : List Nat) :
    (s.readSerial cfg env (xs ++ ys)).state =
      ((s.readSerial cfg env xs).state.readSerial cfg env ys).state ∧
    (s.readSerial cfg env (xs ++ ys)).events =
      (s.readSerial cfg env xs).events ++
        ((s.readSerial cfg env xs).state.readSerial cfg env ys).events := by
  induction xs generalizing s with
  | nil => exact ⟨rfl, rfl⟩
  | cons c xs ih =>
    obtain ⟨h1, h2⟩ := ih (s.readSerialByte cfg env c).1
    refine ⟨h1, ?_⟩
    show (s.readSerialByte cfg env c).2 ++
        (SerialCommand.readSerial cfg env (s.readSerialByte cfg env c).1 (xs ++ ys)).events =
      ((s.readSerialByte cfg env c).2 ++
        (SerialCommand.readSerial cfg env (s.readSerialByte cfg env c).1 xs).events) ++ _
    rw [h2, List.append_assoc]
    rfl

theorem splitOnP_mem (p : Nat → Bool) (l : List Nat) :
    ∀ t ∈ l.splitOnP p, ∀ x ∈ t, x ∈ l := by
  induction l with
  | nil => simp
  | cons a l ih =>
    intro t ht x hx
    rw [List.splitOnP_cons] at ht
    split at ht
    · rcases List.mem_cons.1 ht with rfl | ht
      · simp at hx
      · exact List.mem_cons_of_mem _ (ih t ht x hx)
    · cases hsp : l.splitOnP p with
      | nil => exact absurd hsp (List.splitOnP_ne_nil _ _)
      | cons h tl =>
        rw [hsp] at ht ih
        simp only [List.modifyHead_cons, List.mem_cons] at ht
        rcases ht with rfl | ht
        · rcases List.mem_cons.1 hx with rfl | hx
          · exact List.mem_cons_self _ _
          · exact List.mem_cons_of_mem _ (ih h (List.mem_cons_self _ _) x hx)
        · exact List.mem_cons_of_mem _ (ih t (List.mem_cons_of_mem _ ht) x hx)

theorem tokens_mem (delim l : List Nat) : ∀ t ∈ tokens delim l, ∀ x ∈ t, x ∈ l := by
  intro t ht x hx
  exact splitOnP_mem _ l t (List.mem_of_mem_filter ht) x hx

theorem tokens_all_delims {delim l : List Nat} (h : ∀ c ∈ l, c ∈ delim) : tokens delim l = [] := by
  induction l with
  | nil => exact tokens_nil delim
  | cons a l ih =>
    rw [tokens_cons_delim (h a (List.mem_cons_self _ _))]
    exact ih (fun c hc => h c (List.mem_cons_of_mem _ hc))

/-- The first token of the line of a state of the invariant is a C string. -/
theorem Inv_token_cstr {cfg : Config} {s : SerialCommand} (hs : s.Inv cfg) {c : List Nat}
    {args : List (List Nat)} (hl : tokens s.delim s.line = c :: args) : cstr c = c := by
  apply cstr_of_ne
  intro x hx
  have hmem : c ∈ tokens s.delim s.line := by rw [hl]; exact List.mem_cons_self _ _
  exact isprint_ne_zero (hs.printable x (tokens_mem _ _ c hmem x hx))

theorem matchCommand_first (cfg : Config) (tok : List Nat) (l : List SerialCommandCallback)
    (k i : Nat) (e : SerialCommandCallback) (hi : l[i]? = some e)
    (hm : strncmp tok e.command cfg.SERIALCOMMAND_MAXCOMMANDLENGTH = 0)
    (hfirst : ∀ j e', j < i → l[j]? = some e' →
      strncmp tok e'.command cfg.SERIALCOMMAND_MAXCOMMANDLENGTH ≠ 0) :
    SerialCommand.matchCommand cfg tok l k = some (k + i, e.function) := by
  induction l generalizing k i with
  | nil => simp at hi
  | cons a l ih =>
    cases i with
    | zero =>
      have ha : a = e := by simpa using hi
      subst ha
      simp [SerialCommand.matchCommand, hm]
    | succ i =>
      have hne : strncmp tok a.command cfg.SERIALCOMMAND_MAXCOMMANDLENGTH ≠ 0 :=
        hfirst 0 a (Nat.succ_pos _) (by simp)
      simp only [SerialCommand.matchCommand, if_neg hne]
      rw [ih (k + 1) i (by simpa using hi)
        (fun j e' hj he => hfirst (j + 1) e' (by omega) (by simpa using he))]
      congr 2
      omega

theorem matchCommand_none (cfg : Config) (tok : List Nat) (l : List SerialCommandCallback)
    (k : Nat) (h : ∀ e ∈ l, strncmp tok e.command cfg.SERIALCOMMAND_MAXCOMMANDLENGTH ≠ 0) :
    SerialCommand.matchCommand cfg tok l k = none := by
  induction l generalizing k with
  | nil => rfl
  | cons a l ih =>
    simp only [SerialCommand.matchCommand, if_neg (h a (List.mem_cons_self _ _))]
    exact ih (k + 1) (fun e he => h e (List.mem_cons_of_mem _ he))

theorem Inv_take_table {cfg : Config} {s : SerialCommand} (hs : s.Inv cfg) :
    s.commandList.take s.commandCount = s.commandList := by
  rw [hs.count, List.take_length]

/-- The handler calls on the terminator, in a state of the invariant. -/
theorem Inv_terminator_events {cfg : Config} (env : Handlers) {s : SerialCommand}
    (hs : s.Inv cfg) :
    (s.readSerialByte cfg env s.term).2 = s.dispatchSpec cfg env (tokens s.delim s.line) := by
  rw [readSerialByte_term, dispatch_events, Inv_cstr hs]

theorem observe_nextTimes (m : Nat) (ts : List (List Nat)) :
    (Handler.nextTimes m).observe ts = nextResults ts m := by
  induction m generalizing ts with
  | zero => simp [Handler.nextTimes, Handler.observe, nextResults]
  | succ m ih =>
    simp only [Handler.nextTimes, Handler.observe, ih]
    cases ts with
    | nil => simp [nextResults, List.replicate_succ]
    | cons t ts => simp [nextResults]

/-- The handler calls on the terminator when entry `i` is the first one whose name
equals the first token of the line. -/
theorem first_match_events {cfg : Config} (env : Handlers) {s : SerialCommand}
    {c : List Nat} {args : List (List Nat)} {i : Nat} {e : SerialCommandCallback}
    (hs : s.Inv cfg) (hline : tokens s.delim s.line = c :: args)
    (hentry : s.commandList[i]? = some e)
    (hmatch : c.take cfg.SERIALCOMMAND_MAXCOMMANDLENGTH =
      (cstr e.command).take cfg.SERIALCOMMAND_MAXCOMMANDLENGTH)
    (hfirst : ∀ j e', j < i → s.commandList[j]? = some e' →
      c.take cfg.SERIALCOMMAND_MAXCOMMANDLENGTH ≠
        (cstr e'.command).take cfg.SERIALCOMMAND_MAXCOMMANDLENGTH) :
    (s.readSerialByte cfg env s.term).2 =
      [Event.command i e.function ((env.command e.function).observe args)] := by
  rw [Inv_terminator_events env hs, hline]
  have hc := Inv_token_cstr hs hline
  have hlook : s.lookup cfg c = some (i, e.function) := by
    unfold SerialCommand.lookup
    rw [Inv_take_table hs, matchCommand_first cfg c s.commandList 0 i e hentry
      ((strncmp_eq_zero_iff _ _ _).2 (by rw [hc]; exact hmatch))
      (fun j e' hj he h0 => hfirst j e' hj he (by
        have := (strncmp_eq_zero_iff _ _ _).1 h0
        rwa [hc] at this)), Nat.zero_add]
  simp only [SerialCommand.dispatchSpec, hlook]

/-- C1: when the terminator arrives and the first token of the completed line equals
the name of entry `i` of the table (byte for byte, over the first
`SERIALCOMMAND_MAXCOMMANDLENGTH` characters) and the name of no earlier entry, the
handler calls made are exactly one call of the function of entry `i`: no other command
handler and no default handler is called. -/
theorem terminator_calls_first_matching_entry (cfg : Config) (env : Handlers)
    (s : SerialCommand) (c : List Nat) (args : List (List Nat)) (i : Nat)
    (e : SerialCommandCallback) (hs : s.Inv cfg)
    (hline : tokens s.delim s.line = c :: args)
    (hentry : s.commandList[i]? = some e)
    (hmatch : c.take cfg.SERIALCOMMAND_MAXCOMMANDLENGTH =
      (cstr e.command).take cfg.SERIALCOMMAND_MAXCOMMANDLENGTH)
    (hfirst : ∀ j e', j < i → s.commandList[j]? = some e' →
      c.take cfg.SERIALCOMMAND_MAXCOMMANDLENGTH ≠
        (cstr e'.command).take cfg.SERIALCOMMAND_MAXCOMMANDLENGTH) :
    (s.readSerialByte cfg env s.term).2 =
      [Event.command i e.function ((env.command e.function).observe args)] :=
  first_match_events env hs hline hentry hmatch hfirst

/-- C2: when the terminator arrives and the first token of the completed line equals
the name of no entry of the table, the default handler, if one is set, is called
exactly once, with that first token as its argument, and no command handler is
called; if none is set, no handler is called. -/
theorem terminator_calls_default_when_unmatched (cfg : Config) (env : Handlers)
    (s : SerialCommand) (c : List Nat) (args : List (List Nat)) (hs : s.Inv cfg)
    (hline : tokens s.delim s.line = c :: args)
    (hnone : ∀ e ∈ s.commandList, c.take cfg.SERIALCOMMAND_MAXCOMMANDLENGTH ≠
      (cstr e.command).take cfg.SERIALCOMMAND_MAXCOMMANDLENGTH) :
    (s.readSerialByte cfg env s.term).2 =
      match s.defaultHandler with
      | some f => [Event.default f c ((env.default f c).observe args)]
      | none => [] := by
  rw [Inv_terminator_events env hs, hline]
  have hc := Inv_token_cstr hs hline
  have hlook : s.lookup cfg c = none := by
    unfold SerialCommand.lookup
    rw [Inv_take_table hs]
    apply matchCommand_none
    intro e he h0
    have := (strncmp_eq_zero_iff _ _ _).1 h0
    rw [hc] at this
    exact hnone e he this
  simp only [SerialCommand.dispatchSpec, hlook]

theorem Inv_of_Reachable {cfg : Config} {env : Handlers} {s : SerialCommand}
    (h : s.Reachable cfg env) : s.Inv cfg := by
  induction h with
  | new raw h => exact Inv_new cfg raw h
  | addCommand s command function _ ih => exact Inv_addCommand ih command function
  | setDefaultHandler s function _ ih => exact Inv_setDefaultHandler ih function
  | readSerialByte s inChar _ ih => exact Inv_readSerialByte env ih inChar

theorem take_take_append (n : Nat) (l d : List Nat) :
    (l.take n ++ d).take n = (l ++ d).take n := by
  by_cases h : l.length ≤ n
  · rw [List.take_of_length_le h]
  · have h1 : n ≤ l.length := by omega
    rw [List.take_append_of_le_length (by rw [List.length_take]; omega), List.take_take,
      Nat.min_self, List.take_append_of_le_length h1]

/-- One byte other than the terminator: no handler is called, the configuration is
kept, and the line grows by the byte when it is printable and there is room. -/
theorem readSerialByte_other {cfg : Config} (env : Handlers) {s : SerialCommand}
    (hs : s.Inv cfg) (c : Nat) (hc : c ≠ s.term) :
    (s.readSerialByte cfg env c).2 = [] ∧
    s.SameConfig (s.readSerialByte cfg env c).1 ∧
    (s.readSerialByte cfg env c).1.line =
      (s.line ++ [c].filter isprint).take cfg.SERIALCOMMAND_BUFFER := by
  have hlen := Inv_line_length hs
  have hbound := hs.bound
  by_cases hp : isprint c = true
  · have hf : [c].filter isprint = [c] := by simp [hp]
    rw [hf]
    by_cases hb : s.bufPos < cfg.SERIALCOMMAND_BUFFER
    · rw [readSerialByte_store cfg env s c hc hp hb]
      refine ⟨rfl, ⟨rfl, rfl, rfl, rfl, rfl⟩, ?_⟩
      have h1 : ((s.buffer.set s.bufPos c).set (s.bufPos + 1) 0).take (s.bufPos + 1) =
          s.line ++ [c] := take_store _ _ _ (by rw [hs.size]; omega)
      have h2 : (s.line ++ [c]).length ≤ cfg.SERIALCOMMAND_BUFFER := by
        rw [List.length_append, hlen]; simpa using hb
      rw [List.take_of_length_le h2]
      exact h1
    · rw [readSerialByte_drop cfg env s c hc (Or.inr (by omega))]
      refine ⟨rfl, SameConfig_refl s, ?_⟩
      rw [List.take_append_of_le_length (by omega), List.take_of_length_le (by omega)]
  · have hp2 : isprint c = false := by simpa using hp
    have hf : [c].filter isprint = [] := by simp [hp2]
    rw [hf, readSerialByte_drop cfg env s c hc (Or.inl hp2)]
    refine ⟨rfl, SameConfig_refl s, ?_⟩
    rw [List.append_nil, List.take_of_length_le (by omega)]

/-- A run of `readSerial` on bytes without the terminator: no handler is called, the
configuration is kept, and the line is extended by the printable bytes, up to the
capacity. -/
theorem readSerial_no_terminator {cfg : Config} (env : Handlers) {s : SerialCommand}
    (hs : s.Inv cfg) (xs : List Nat) (hx : s.term ∉ xs) :
    (s.readSerial cfg env xs).events = [] ∧
    s.SameConfig (s.readSerial cfg env xs).state ∧
    (s.readSerial cfg env xs).state.line =
      (s.line ++ xs.filter isprint).take cfg.SERIALCOMMAND_BUFFER := by
  induction xs generalizing s with
  | nil =>
    refine ⟨rfl, SameConfig_refl s, ?_⟩
    show s.line = _
    rw [List.filter_nil, List.append_nil,
      List.take_of_length_le (by rw [Inv_line_length hs]; exact hs.bound)]
  | cons c xs ih =>
    have hc : c ≠ s.term := fun h => hx (h ▸ List.mem_cons_self _ _)
    obtain ⟨b1, b2, b3⟩ := readSerialByte_other env hs c hc
    have hs' := Inv_readSerialByte env hs c
    have hx' : (s.readSerialByte cfg env c).1.term ∉ xs := by
      rw [← b2.2.2.2.2]; exact fun h => hx (List.mem_cons_of_mem _ h)
    obtain ⟨i1, i2, i3⟩ := ih hs' hx'
    refine ⟨?_, SameConfig_trans b2 i2, ?_⟩
    · show (s.readSerialByte cfg env c).2 ++ _ = []
      rw [b1, i1]; rfl
    · show (SerialCommand.readSerial cfg env (s.readSerialByte cfg env c).1 xs).state.line = _
      have hsplit : (c :: xs).filter isprint = [c].filter isprint ++ xs.filter isprint := by
        rw [← List.filter_append]; rfl
      rw [i3, b3, take_take_append, hsplit, List.append_assoc]

/-- The line after bytes without the terminator, read from an empty line buffer. -/
theorem line_from_empty {cfg : Config} (env : Handlers) {s : SerialCommand}
    (xs : List Nat) (hs : s.Inv cfg) (hempty : s.bufPos = 0) (hx : s.term ∉ xs) :
    (s.readSerial cfg env xs).state.line = (xs.filter isprint).take cfg.SERIALCOMMAND_BUFFER := by
  have h := (readSerial_no_terminator env hs xs hx).2.2
  have h0 : s.line = [] := by simp [SerialCommand.line, hempty]
  rw [h, h0, List.nil_append]

/-- C3: bytes without the terminator, read by `readSerial` from an empty line buffer,
leave in the line buffer (its first `bufPos` characters) the printable bytes of the
input, in order, cut to the first `SERIALCOMMAND_BUFFER` of them. -/
theorem line_is_printable_input (cfg : Config) (env : Handlers) (s : SerialCommand)
    (xs : List Nat) (hs : s.Inv cfg) (hempty : s.bufPos = 0) (hx : s.term ∉ xs) :
    (s.readSerial cfg env xs).state.line = (xs.filter isprint).take cfg.SERIALCOMMAND_BUFFER :=
  line_from_empty env xs hs hempty hx

/-- C4: when the terminator arrives and the tokens of the completed line are
`c, t1, ..., tN`, the handler called for `c` (the command handler found in the table,
else the default handler), calling `next()` `m` times, gets `t1, ..., tN` in this
order and then null results only. -/
theorem next_returns_arguments_in_order (cfg : Config) (env : Handlers) (s : SerialCommand)
    (c : List Nat) (args : List (List Nat)) (m : Nat) (hs : s.Inv cfg)
    (hline : tokens s.delim s.line = c :: args)
    (hcommand : ∀ f, env.command f = Handler.nextTimes m)
    (hdefault : ∀ f a, env.default f a = Handler.nextTimes m) :
    (s.readSerialByte cfg env s.term).2 =
      match s.lookup cfg c with
      | some (i, f) => [Event.command i f (nextResults args m)]
      | none =>
        match s.defaultHandler with
        | some f => [Event.default f c (nextResults args m)]
        | none => [] := by
  rw [Inv_terminator_events env hs, hline]
  simp only [SerialCommand.dispatchSpec, hcommand, hdefault, observe_nextTimes]

/-- C5: in every reachable state the line is within the capacity and the buffer holds
a NUL at index `bufPos`; a printable byte that arrives when `bufPos` is
`SERIALCOMMAND_BUFFER` is dropped: the object is unchanged and no handler is called. -/
theorem reachable_buffer_bounded (cfg : Config) (env : Handlers) (s : SerialCommand)
    (hr : s.Reachable cfg env) :
    s.bufPos ≤ cfg.SERIALCOMMAND_BUFFER ∧ s.bufPos < s.buffer.length ∧
    s.buffer.getD s.bufPos 1 = 0 ∧
    ∀ c, isprint c = true → s.bufPos = cfg.SERIALCOMMAND_BUFFER →
      s.readSerialByte cfg env c = (s, []) := by
  have hs := Inv_of_Reachable hr
  refine ⟨hs.bound, by have := hs.size; have := hs.bound; omega, hs.nul, ?_⟩
  intro c hp hfull
  exact readSerialByte_drop cfg env s c
    (by rw [hs.term_eq]; exact isprint_ne_newline hp) (Or.inr (by omega))

theorem SameConfig_symm {a b : SerialCommand} (h : a.SameConfig b) : b.SameConfig a :=
  ⟨h.1.symm, h.2.1.symm, h.2.2.1.symm, h.2.2.2.1.symm, h.2.2.2.2.symm⟩

theorem dispatchSpec_congr (cfg : Config) (env : Handlers) {a b : SerialCommand}
    (h : a.SameConfig b) (ts : List (List Nat)) :
    a.dispatchSpec cfg env ts = b.dispatchSpec cfg env ts := by
  cases ts with
  | nil => rfl
  | cons c args =>
    simp only [SerialCommand.dispatchSpec, SerialCommand.lookup, h.1, h.2.1, h.2.2.1]

theorem readSerialByte_SameConfig (cfg : Config) (env : Handlers) (s : SerialCommand) (c : Nat) :
    s.SameConfig (s.readSerialByte cfg env c).1 := by
  unfold SerialCommand.readSerialByte
  split
  · exact (dispatch_state cfg env s).1
  · split
    · split
      · exact ⟨rfl, rfl, rfl, rfl, rfl⟩
      · exact SameConfig_refl s
    · exact SameConfig_refl s

theorem readSerial_SameConfig (cfg : Config) (env : Handlers) (s : SerialCommand)
    (xs : List Nat) : s.SameConfig (s.readSerial cfg env xs).state := by
  induction xs generalizing s with
  | nil => exact SameConfig_refl s
  | cons c xs ih => exact SameConfig_trans (readSerialByte_SameConfig cfg env s c) (ih _)

/-- The terminator leaves an empty line. -/
theorem Inv_terminator_state {cfg : Config} (env : Handlers) {s : SerialCommand}
    (hs : s.Inv cfg) :
    (s.readSerialByte cfg env s.term).1.bufPos = 0 ∧
    (s.readSerialByte cfg env s.term).1.buffer.getD 0 1 = 0 ∧
    (s.readSerialByte cfg env s.term).1.line = [] := by
  rw [readSerialByte_term]
  obtain ⟨_, hp, _, hz⟩ := dispatch_state cfg env s
  refine ⟨hp, hz (by rw [hs.size]; exact Nat.succ_pos _), ?_⟩
  simp [SerialCommand.line, hp]

/-- Two objects with the same configuration and the same line make the same handler
calls on a byte, and have the same configuration and line after it. -/
theorem readSerialByte_congr {cfg : Config} (env : Handlers) {a b : SerialCommand}
    (ha : a.Inv cfg) (hb : b.Inv cfg) (hab : a.SameConfig b) (hl : a.line = b.line) (c : Nat) :
    (a.readSerialByte cfg env c).2 = (b.readSerialByte cfg env c).2 ∧
    (a.readSerialByte cfg env c).1.SameConfig (b.readSerialByte cfg env c).1 ∧
    (a.readSerialByte cfg env c).1.line = (b.readSerialByte cfg env c).1.line := by
  have hcfg : (a.readSerialByte cfg env c).1.SameConfig (b.readSerialByte cfg env c).1 :=
    SameConfig_trans (SameConfig_symm (readSerialByte_SameConfig cfg env a c))
      (SameConfig_trans hab (readSerialByte_SameConfig cfg env b c))
  by_cases hc : c = a.term
  · have hc' : c = b.term := hc.trans hab.2.2.2.2
    refine ⟨?_, hcfg, ?_⟩
    · conv_lhs => rw [hc]
      conv_rhs => rw [hc']
      rw [Inv_terminator_events env ha, Inv_terminator_events env hb, hl, hab.2.2.2.1,
        dispatchSpec_congr cfg env hab]
    · conv_lhs => rw [hc]
      conv_rhs => rw [hc']
      rw [(Inv_terminator_state env ha).2.2, (Inv_terminator_state env hb).2.2]
  · have hc' : c ≠ b.term := fun h => hc (h.trans hab.2.2.2.2.symm)
    obtain ⟨a1, _, a3⟩ := readSerialByte_other env ha c hc
    obtain ⟨b1, _, b3⟩ := readSerialByte_other env hb c hc'
    exact ⟨a1.trans b1.symm, hcfg, by rw [a3, b3, hl]⟩

theorem readSerial_congr {cfg : Config} (env : Handlers) {a b : SerialCommand}
    (ha : a.Inv cfg) (hb : b.Inv cfg) (hab : a.SameConfig b) (hl : a.line = b.line)
    (xs : List Nat) :
    (a.readSerial cfg env xs).events = (b.readSerial cfg env xs).events := by
  induction xs generalizing a b with
  | nil => rfl
  | cons c xs ih =>
    obtain ⟨h1, h2, h3⟩ := readSerialByte_congr env ha hb hab hl c
    show (a.readSerialByte cfg env c).2 ++ _ = (b.readSerialByte cfg env c).2 ++ _
    rw [h1, ih (Inv_readSerialByte env ha c) (Inv_readSerialByte env hb c) h2 h3]

/-- The state after a history that ends in the terminator. -/
theorem readSerial_terminated {cfg : Config} (env : Handlers) {s : SerialCommand}
    (hs : s.Inv cfg) (h : List Nat) :
    (s.readSerial cfg env (h ++ [s.term])).state.Inv cfg ∧
    s.SameConfig (s.readSerial cfg env (h ++ [s.term])).state ∧
    (s.readSerial cfg env (h ++ [s.term])).state.line = [] := by
  refine ⟨Inv_readSerial env hs _, readSerial_SameConfig cfg env s _, ?_⟩
  rw [(readSerial_append cfg env s h [s.term]).1]
  have ht : s.term = (s.readSerial cfg env h).state.term :=
    (readSerial_SameConfig cfg env s h).2.2.2.2
  rw [ht]
  exact (Inv_terminator_state env (Inv_readSerial env hs h)).2.2

/-- C6: of a line with more than `SERIALCOMMAND_BUFFER` printable characters (the
capacity being positive), the text in the buffer when the terminator arrives is the
first `SERIALCOMMAND_BUFFER` printable characters; the handler calls are those of
the tokens of that text; when it holds no delimiter, it is the token looked up in
the table and passed to the default handler. -/
theorem long_line_truncated_to_capacity (cfg : Config) (env : Handlers) (s : SerialCommand)
    (xs : List Nat) (hs : s.Inv cfg) (hempty : s.bufPos = 0) (hx : s.term ∉ xs)
    (hpos : 0 < cfg.SERIALCOMMAND_BUFFER)
    (hlong : cfg.SERIALCOMMAND_BUFFER < (xs.filter isprint).length) :
    cstr (s.readSerial cfg env xs).state.buffer =
      (xs.filter isprint).take cfg.SERIALCOMMAND_BUFFER ∧
    (s.readSerial cfg env (xs ++ [s.term])).events =
      s.dispatchSpec cfg env (tokens s.delim ((xs.filter isprint).take cfg.SERIALCOMMAND_BUFFER)) ∧
    ((∀ c ∈ (xs.filter isprint).take cfg.SERIALCOMMAND_BUFFER, c ∉ s.delim) →
      (s.readSerial cfg env (xs ++ [s.term])).events =
        match s.lookup cfg ((xs.filter isprint).take cfg.SERIALCOMMAND_BUFFER) with
        | some (i, f) => [Event.command i f ((env.command f).observe [])]
        | none =>
          match s.defaultHandler with
          | some f =>
            [Event.default f ((xs.filter isprint).take cfg.SERIALCOMMAND_BUFFER)
              ((env.default f ((xs.filter isprint).take cfg.SERIALCOMMAND_BUFFER)).observe [])]
          | none => []) := by
  have hline := line_from_empty env xs hs hempty hx
  obtain ⟨e1, e2, _⟩ := readSerial_no_terminator env hs xs hx
  have hs' := Inv_readSerial env hs xs
  have hev : (s.readSerial cfg env (xs ++ [s.term])).events =
      s.dispatchSpec cfg env
        (tokens s.delim ((xs.filter isprint).take cfg.SERIALCOMMAND_BUFFER)) := by
    rw [(readSerial_append cfg env s xs [s.term]).2, e1, List.nil_append]
    show ((s.readSerial cfg env xs).state.readSerialByte cfg env s.term).2 ++ [] = _
    rw [List.append_nil, e2.2.2.2.2, Inv_terminator_events env hs', hline, ← e2.2.2.2.1,
      dispatchSpec_congr cfg env e2]
  refine ⟨by rw [Inv_cstr hs', hline], hev, ?_⟩
  intro hfree
  have hne : (xs.filter isprint).take cfg.SERIALCOMMAND_BUFFER ≠ [] := by
    intro h
    have := congrArg List.length h
    rw [List.length_take, List.length_nil] at this
    omega
  rw [hev, tokens_single hne hfree]
  simp only [SerialCommand.dispatchSpec]

/-- C7: the terminator leaves the line buffer empty (`bufPos` is 0 and the buffer
starts with NUL); and after two histories that both end in the terminator, on objects
with the same table and default handler, the same bytes lead to the same handler
calls, with the same argument of the default handler and the same results of
`next()`. -/
theorem terminator_resets_line_buffer (cfg : Config) (env : Handlers) (a b : SerialCommand)
    (h1 h2 xs : List Nat) (ha : a.Inv cfg) (hb : b.Inv cfg) (hab : a.SameConfig b) :
    (a.readSerialByte cfg env a.term).1.bufPos = 0 ∧
    (a.readSerialByte cfg env a.term).1.buffer.getD 0 1 = 0 ∧
    ((a.readSerial cfg env (h1 ++ [a.term])).state.readSerial cfg env xs).events =
      ((b.readSerial cfg env (h2 ++ [b.term])).state.readSerial cfg env xs).events := by
  obtain ⟨t1, t2, _⟩ := Inv_terminator_state env ha
  obtain ⟨a1, a2, a3⟩ := readSerial_terminated env ha h1
  obtain ⟨b1, b2, b3⟩ := readSerial_terminated env hb h2
  exact ⟨t1, t2, readSerial_congr env a1 b1
    (SameConfig_trans (SameConfig_symm a2) (SameConfig_trans hab b2)) (a3.trans b3.symm) xs⟩

/-- C8: when the terminator arrives and the completed line is empty or made of
delimiters only, no handler is called, neither a command handler nor the default
handler, and the line buffer is reset to empty. -/
theorem blank_line_calls_no_handler (cfg : Config) (env : Handlers) (s : SerialCommand)
    (hs : s.Inv cfg) (hblank : ∀ c ∈ s.line, c ∈ s.delim) :
    (s.readSerialByte cfg env s.term).2 = [] ∧
    (s.readSerialByte cfg env s.term).1.bufPos = 0 ∧
    (s.readSerialByte cfg env s.term).1.buffer.getD 0 1 = 0 := by
  obtain ⟨t1, t2, _⟩ := Inv_terminator_state env hs
  refine ⟨?_, t1, t2⟩
  rw [Inv_terminator_events env hs, tokens_all_delims hblank]
  rfl

theorem strncpy_long {name : List Nat} {n : Nat} (hname : ∀ x ∈ name, x ≠ 0)
    (hlen : n ≤ name.length) : strncpy name n = name.take n := by
  unfold strncpy
  rw [cstr_of_ne hname, Nat.sub_eq_zero_of_le hlen]
  simp

theorem Inv_ledDispatcher : ledDispatcher.Inv exampleConfig :=
  Inv_setDefaultHandler
    (Inv_addCommand (Inv_addCommand (Inv_new exampleConfig (List.replicate 9 0) rfl) _ _) _ _) _

theorem Inv_shadowedDispatcher : shadowedDispatcher.Inv exampleConfig :=
  Inv_addCommand (Inv_addCommand (Inv_new exampleConfig (List.replicate 9 0) rfl) _ _) _ _

/-- The entry registered under a name longer than the maximum is found by a line whose
first token is the truncated name, when no earlier entry has that name. -/
theorem long_name_dispatch {cfg : Config} (env : Handlers) {s : SerialCommand}
    {name : List Nat} (f : Nat) (hs : s.Inv cfg) (hname : ∀ x ∈ name, x ≠ 0)
    (hlong : cfg.SERIALCOMMAND_MAXCOMMANDLENGTH < name.length) (xs : List Nat)
    (args : List (List Nat))
    (hline : tokens ((s.addCommand cfg name f).readSerial cfg env xs).state.delim
        ((s.addCommand cfg name f).readSerial cfg env xs).state.line =
      name.take cfg.SERIALCOMMAND_MAXCOMMANDLENGTH :: args)
    (hfirst : ∀ e ∈ s.commandList, name.take cfg.SERIALCOMMAND_MAXCOMMANDLENGTH ≠
      (cstr e.command).take cfg.SERIALCOMMAND_MAXCOMMANDLENGTH) :
    (((s.addCommand cfg name f).readSerial cfg env xs).state.readSerialByte cfg env
        ((s.addCommand cfg name f).readSerial cfg env xs).state.term).2 =
      [Event.command s.commandCount f ((env.command f).observe args)] := by
  have hinv := Inv_readSerial env (Inv_addCommand hs name f) xs
  have hcfg := readSerial_SameConfig cfg env (s.addCommand cfg name f) xs
  have htab : ((s.addCommand cfg name f).readSerial cfg env xs).state.commandList =
      s.commandList ++ [{ command := name.take cfg.SERIALCOMMAND_MAXCOMMANDLENGTH,
                          function := f }] := by
    rw [← hcfg.1]
    simp only [SerialCommand.addCommand]
    rw [Inv_take_table hs, strncpy_long hname (Nat.le_of_lt hlong)]
  have htake : ∀ x ∈ name.take cfg.SERIALCOMMAND_MAXCOMMANDLENGTH, x ≠ 0 :=
    fun x hx => hname x (List.mem_of_mem_take hx)
  refine first_match_events (i := s.commandCount)
    (e := { command := name.take cfg.SERIALCOMMAND_MAXCOMMANDLENGTH, function := f })
    env hinv hline ?_ ?_ ?_
  · rw [htab, hs.count]
    simp
  · show _ = (cstr (name.take cfg.SERIALCOMMAND_MAXCOMMANDLENGTH)).take _
    rw [cstr_of_ne htake]
  · intro j e' hj he
    rw [htab] at he
    rw [hs.count] at hj
    rw [List.getElem?_append_left hj] at he
    rw [List.take_take, Nat.min_self]
    exact hfirst e' (List.getElem?_mem he)

/-- C9 (as stated, refuted): with `ABCDEFGH` registered first (handler 1) and the longer
name `ABCDEFGHIJ` registered after it (handler 2), the line `ABCDEFGH` calls the
handler 1 of the earlier entry, not the handler of the entry of the long name. -/
theorem long_name_entry_shadowed :
    (shadowedDispatcher.readSerial exampleConfig Handlers.silent
      [65, 66, 67, 68, 69, 70, 71, 72, 10]).events = [Event.command 0 1 []] ∧
    (shadowedDispatcher.readSerial exampleConfig Handlers.silent
      [65, 66, 67, 68, 69, 70, 71, 72, 10]).events ≠ [Event.command 1 2 []] := by
  decide

/-- C9 (amended): a name longer than `SERIALCOMMAND_MAXCOMMANDLENGTH` is stored cut to
its first `SERIALCOMMAND_MAXCOMMANDLENGTH` characters; the object is the same as when
that truncated name is registered instead, so every input leads to the same handler
calls; and a line whose first token is the truncated name calls the handler of the
entry, provided no earlier entry has that name. -/
theorem long_name_stored_truncated (cfg : Config) (env : Handlers) (s : SerialCommand)
    (name : List Nat) (f : Nat) (hs : s.Inv cfg) (hname : ∀ x ∈ name, x ≠ 0)
    (hlong : cfg.SERIALCOMMAND_MAXCOMMANDLENGTH < name.length) :
    (s.addCommand cfg name f).commandList =
      s.commandList ++ [{ command := name.take cfg.SERIALCOMMAND_MAXCOMMANDLENGTH,
                          function := f }] ∧
    s.addCommand cfg name f =
      s.addCommand cfg (name.take cfg.SERIALCOMMAND_MAXCOMMANDLENGTH) f ∧
    (∀ xs, ((s.addCommand cfg name f).readSerial cfg env xs).events =
      ((s.addCommand cfg (name.take cfg.SERIALCOMMAND_MAXCOMMANDLENGTH) f).readSerial
        cfg env xs).events) ∧
    (∀ xs args,
      tokens ((s.addCommand cfg name f).readSerial cfg env xs).state.delim
          ((s.addCommand cfg name f).readSerial cfg env xs).state.line =
        name.take cfg.SERIALCOMMAND_MAXCOMMANDLENGTH :: args →
      (∀ e ∈ s.commandList, name.take cfg.SERIALCOMMAND_MAXCOMMANDLENGTH ≠
        (cstr e.command).take cfg.SERIALCOMMAND_MAXCOMMANDLENGTH) →
      (((s.addCommand cfg name f).readSerial cfg env xs).state.readSerialByte cfg env
          ((s.addCommand cfg name f).readSerial cfg env xs).state.term).2 =
        [Event.command s.commandCount f ((env.command f).observe args)]) := by
  have htake : ∀ x ∈ name.take cfg.SERIALCOMMAND_MAXCOMMANDLENGTH, x ≠ 0 :=
    fun x hx => hname x (List.mem_of_mem_take hx)
  have hlen : (name.take cfg.SERIALCOMMAND_MAXCOMMANDLENGTH).length =
      cfg.SERIALCOMMAND_MAXCOMMANDLENGTH := List.length_take_of_le (Nat.le_of_lt hlong)
  have heq : s.addCommand cfg name f =
      s.addCommand cfg (name.take cfg.SERIALCOMMAND_MAXCOMMANDLENGTH) f := by
    simp only [SerialCommand.addCommand]
    rw [strncpy_long hname (Nat.le_of_lt hlong), strncpy_long htake (Nat.le_of_eq hlen.symm),
      List.take_take, Nat.min_self]
  refine ⟨?_, heq, fun xs => by rw [← heq], fun xs args hline hfirst =>
    long_name_dispatch env f hs hname hlong xs args hline hfirst⟩
  simp only [SerialCommand.addCommand]
  rw [Inv_take_table hs, strncpy_long hname (Nat.le_of_lt hlong)]

/-- C10: `addCommand` appends one entry at the end of the command table:
`commandCount` grows by one, the entries registered before keep their names, handlers
and positions, and the default handler, the line buffer and the other members are
unchanged; the name is not checked against the names in the table. -/
theorem addCommand_appends_one_entry (cfg : Config) (s : SerialCommand) (name : List Nat)
    (f : Nat) (hcount : s.commandCount = s.commandList.length) :
    (s.addCommand cfg name f).commandCount = s.commandCount + 1 ∧
    (s.addCommand cfg name f).commandList =
      s.commandList ++ [{ command := strncpy name cfg.SERIALCOMMAND_MAXCOMMANDLENGTH,
                          function := f }] ∧
    (s.addCommand cfg name f).commandList.length = s.commandList.length + 1 ∧
    (∀ (j : Nat) (e : SerialCommandCallback), s.commandList[j]? = some e →
      (s.addCommand cfg name f).commandList[j]? = some e) ∧
    (s.addCommand cfg name f).defaultHandler = s.defaultHandler ∧
    (s.addCommand cfg name f).buffer = s.buffer ∧
    (s.addCommand cfg name f).bufPos = s.bufPos ∧
    (s.addCommand cfg name f).last = s.last ∧
    (s.addCommand cfg name f).delim = s.delim ∧
    (s.addCommand cfg name f).term = s.term := by
  have htab : (s.addCommand cfg name f).commandList =
      s.commandList ++ [{ command := strncpy name cfg.SERIALCOMMAND_MAXCOMMANDLENGTH,
                          function := f }] := by
    simp only [SerialCommand.addCommand]
    rw [hcount, List.take_length]
  refine ⟨rfl, htab, by rw [htab]; simp, ?_, rfl, rfl, rfl, rfl, rfl, rfl⟩
  intro j e he
  have hj : j < s.commandList.length := by
    by_contra hge
    rw [List.getElem?_eq_none (by omega)] at he
    exact absurd he (by simp)
  rw [htab, List.getElem?_append_left hj]
  exact he

theorem Inv_ledDispatcherAfter (env : Handlers) (xs : List Nat) :
    (ledDispatcherAfter env xs).Inv exampleConfig :=
  Inv_readSerial env Inv_ledDispatcher xs

theorem Reachable_fullDispatcher : fullDispatcher.Reachable tinyConfig Handlers.silent :=
  SerialCommand.Reachable.readSerialByte _ 66
    (SerialCommand.Reachable.readSerialByte _ 65 (SerialCommand.Reachable.new [7, 7, 7] rfl))

/-- The line `LED` calls the handler 1 of the entry `LED`, once. -/
theorem terminator_calls_first_matching_entry_witness :
    tokens [32] (ledDispatcherAfter Handlers.silent [76, 69, 68]).line = [[76, 69, 68]] ∧
    ((ledDispatcherAfter Handlers.silent [76, 69, 68]).readSerialByte exampleConfig
      Handlers.silent 10).2 = [Event.command 0 1 []] :=
  ⟨by decide,
    terminator_calls_first_matching_entry exampleConfig Handlers.silent
      (ledDispatcherAfter Handlers.silent [76, 69, 68]) [76, 69, 68] [] 0
      { command := [76, 69, 68, 0, 0, 0, 0, 0], function := 1 }
      (Inv_ledDispatcherAfter _ _) (by decide) (by decide) (by decide)
      (fun j _ hj _ => absurd hj (Nat.not_lt_zero j))⟩

/-- The line `led` calls the default handler 2 with the string `led`. -/
theorem terminator_calls_default_when_unmatched_witness :
    ((ledDispatcherAfter Handlers.silent [108, 101, 100]).readSerialByte exampleConfig
      Handlers.silent 10).2 = [Event.default 2 [108, 101, 100] []] :=
  terminator_calls_default_when_unmatched exampleConfig Handlers.silent
    (ledDispatcherAfter Handlers.silent [108, 101, 100]) [108, 101, 100] []
    (Inv_ledDispatcherAfter _ _) (by decide) (by decide)

/-- The bytes `AB`, CR, `CDEFGHIJ` leave the line `ABCDEFGH` in a buffer of capacity 8. -/
theorem line_is_printable_input_witness :
    (ledDispatcher.readSerial exampleConfig Handlers.silent
      [65, 66, 13, 67, 68, 69, 70, 71, 72, 73, 74]).state.line =
      [65, 66, 67, 68, 69, 70, 71, 72] :=
  line_is_printable_input exampleConfig Handlers.silent ledDispatcher
    [65, 66, 13, 67, 68, 69, 70, 71, 72, 73, 74] Inv_ledDispatcher rfl (by decide)

/-- The line `SET 10 20`: the handler of `SET`, calling `next()` three times, gets `10`,
`20` and a null result. -/
theorem next_returns_arguments_in_order_witness :
    tokens setDispatcher.delim setDispatcher.line = [[83, 69, 84], [49, 48], [50, 48]] ∧
    (setDispatcher.readSerialByte defaultConfig Handlers.threeNexts 10).2 =
      [Event.command 0 3 [some [49, 48], some [50, 48], none]] :=
  ⟨by decide,
    next_returns_arguments_in_order defaultConfig Handlers.threeNexts setDispatcher
      [83, 69, 84] [[49, 48], [50, 48]] 3
      (Inv_readSerial _ (Inv_addCommand (Inv_new defaultConfig (List.replicate 33 0) rfl) _ _) _)
      (by decide) (fun _ => rfl) (fun _ _ => rfl)⟩

/-- The full buffer of capacity 2 drops the printable byte `C`. -/
theorem reachable_buffer_bounded_witness :
    fullDispatcher.bufPos ≤ 2 ∧ fullDispatcher.buffer.getD fullDispatcher.bufPos 1 = 0 ∧
    fullDispatcher.readSerialByte tinyConfig Handlers.silent 67 = (fullDispatcher, []) :=
  have h := reachable_buffer_bounded tinyConfig Handlers.silent fullDispatcher
    Reachable_fullDispatcher
  ⟨h.1, h.2.2.1, h.2.2.2 67 rfl rfl⟩

/-- Capacity 8: the line `ABCDEFGHIJ` passes `ABCDEFGH` to the default handler. -/
theorem long_line_truncated_to_capacity_witness :
    (ledDispatcher.readSerial exampleConfig Handlers.silent
      ([65, 66, 67, 68, 69, 70, 71, 72, 73, 74] ++ [10])).events =
      [Event.default 2 [65, 66, 67, 68, 69, 70, 71, 72] []] :=
  (long_line_truncated_to_capacity exampleConfig Handlers.silent ledDispatcher
    [65, 66, 67, 68, 69, 70, 71, 72, 73, 74] Inv_ledDispatcher rfl (by decide) (by decide)
    (by decide)).2.2 (by decide)

/-- After the histories `LED 1` and `xyz`, each ended by the terminator, the input
`SET 5` and the terminator leads to the same handler calls. -/
theorem terminator_resets_line_buffer_witness :
    (ledDispatcher.readSerialByte exampleConfig Handlers.threeNexts 10).1.bufPos = 0 ∧
    (ledDispatcher.readSerialByte exampleConfig Handlers.threeNexts 10).1.buffer.getD 0 1 = 0 ∧
    ((ledDispatcher.readSerial exampleConfig Handlers.threeNexts
        ([76, 69, 68, 32, 49] ++ [10])).state.readSerial exampleConfig Handlers.threeNexts
        [83, 69, 84, 32, 53, 10]).events =
      ((ledDispatcher.readSerial exampleConfig Handlers.threeNexts
        ([120, 121, 122] ++ [10])).state.readSerial exampleConfig Handlers.threeNexts
        [83, 69, 84, 32, 53, 10]).events :=
  terminator_resets_line_buffer exampleConfig Handlers.threeNexts ledDispatcher ledDispatcher
    [76, 69, 68, 32, 49] [120, 121, 122] [83, 69, 84, 32, 53, 10] Inv_ledDispatcher
    Inv_ledDispatcher (SameConfig_refl _)

/-- A line of two spaces calls no handler, although a default handler is set. -/
theorem blank_line_calls_no_handler_witness :
    ledDispatcher.defaultHandler = some 2 ∧
    ((ledDispatcherAfter Handlers.silent [32, 32]).readSerialByte exampleConfig
      Handlers.silent 10).2 = [] ∧
    ((ledDispatcherAfter Handlers.silent [32, 32]).readSerialByte exampleConfig
      Handlers.silent 10).1.bufPos = 0 ∧
    ((ledDispatcherAfter Handlers.silent [32, 32]).readSerialByte exampleConfig
      Handlers.silent 10).1.buffer.getD 0 1 = 0 :=
  ⟨rfl, blank_line_calls_no_handler exampleConfig Handlers.silent
    (ledDispatcherAfter Handlers.silent [32, 32]) (Inv_ledDispatcherAfter _ _) (by decide)⟩

/-- The name `ABCDEFGHIJ` is stored as `ABCDEFGH`, and the line `ABCDEFGH` calls its
handler when the table has no other entry. -/
theorem long_name_stored_truncated_witness :
    ((SerialCommand.new (List.replicate 9 0)).addCommand exampleConfig
      [65, 66, 67, 68, 69, 70, 71, 72, 73, 74] 2).commandList =
      [{ command := [65, 66, 67, 68, 69, 70, 71, 72], function := 2 }] ∧
    ((((SerialCommand.new (List.replicate 9 0)).addCommand exampleConfig
      [65, 66, 67, 68, 69, 70, 71, 72, 73, 74] 2).readSerial exampleConfig Handlers.silent
      [65, 66, 67, 68, 69, 70, 71, 72]).state.readSerialByte exampleConfig
      Handlers.silent 10).2 = [Event.command 0 2 []] :=
  have h := long_name_stored_truncated exampleConfig Handlers.silent
    (SerialCommand.new (List.replicate 9 0)) [65, 66, 67, 68, 69, 70, 71, 72, 73, 74] 2
    (Inv_new exampleConfig (List.replicate 9 0) rfl) (by decide) (by decide)
  ⟨h.1, h.2.2.2 [65, 66, 67, 68, 69, 70, 71, 72] [] (by decide) (by decide)⟩

/-- Registering `LED` a second time adds a third entry to the example table. -/
theorem addCommand_appends_one_entry_witness :
    (ledDispatcher.addCommand exampleConfig [76, 69, 68] 9).commandCount = 3 ∧
    (ledDispatcher.addCommand exampleConfig [76, 69, 68] 9).commandList =
      [{ command := [76, 69, 68, 0, 0, 0, 0, 0], function := 1 },
       { command := [83, 69, 84, 0, 0, 0, 0, 0], function := 3 },
       { command := [76, 69, 68, 0, 0, 0, 0, 0], function := 9 }] :=
  have h := addCommand_appends_one_entry exampleConfig ledDispatcher [76, 69, 68] 9 rfl
  ⟨h.1, h.2.1⟩

theorem matchCommand_some (cfg : Config) (tok : List Nat) (l : List SerialCommandCallback)
    (k0 k f : Nat) (h : SerialCommand.matchCommand cfg tok l k0 = some (k, f)) :
    ∃ e, k0 ≤ k ∧ l[k - k0]? = some e ∧ e.function = f ∧
      strncmp tok e.command cfg.SERIALCOMMAND_MAXCOMMANDLENGTH = 0 ∧
      ∀ j e', j < k - k0 → l[j]? = some e' →
        strncmp tok e'.command cfg.SERIALCOMMAND_MAXCOMMANDLENGTH ≠ 0 := by
  induction l generalizing k0 with
  | nil => simp [SerialCommand.matchCommand] at h
  | cons a l ih =>
    unfold SerialCommand.matchCommand at h
    split at h
    · rename_i hm
      have hk : k0 = k ∧ a.function = f := by simpa using h
      refine ⟨a, Nat.le_of_eq hk.1, ?_, hk.2, hm, ?_⟩
      · rw [hk.1, Nat.sub_self]; simp
      · intro j e' hj; rw [hk.1, Nat.sub_self] at hj; exact absurd hj (Nat.not_lt_zero j)
    · rename_i hm
      obtain ⟨e, h1, h2, h3, h4, h5⟩ := ih (k0 + 1) h
      have hsub : k - k0 = (k - (k0 + 1)) + 1 := by omega
      refine ⟨e, by omega, ?_, h3, h4, ?_⟩
      · rw [hsub, List.getElem?_cons_succ]; exact h2
      · intro j e' hj he
        cases j with
        | zero =>
          have : a = e' := by simpa using he
          rw [← this]; exact hm
        | succ j =>
          exact h5 j e' (by omega) (by simpa using he)

/-- The handler calls of one iteration of the loop: those of the tokens of the string
in the buffer on the terminator, none on another byte. -/
theorem readSerialByte_events (cfg : Config) (env : Handlers) (s : SerialCommand) (c : Nat) :
    (s.readSerialByte cfg env c).2 =
      if c = s.term then s.dispatchSpec cfg env (tokens s.delim (cstr s.buffer)) else [] := by
  unfold SerialCommand.readSerialByte
  split
  · exact dispatch_events cfg env s
  · split
    · split <;> rfl
    · rfl

/-- Every handler call of a run of `readSerial` is one the table lookup or the default
handler of the object leads to, for some tokens. -/
theorem readSerial_events_sound (cfg : Config) (env : Handlers) (s : SerialCommand)
    (xs : List Nat) :
    ∀ ev ∈ (s.readSerial cfg env xs).events, ∃ ts, ev ∈ s.dispatchSpec cfg env ts := by
  induction xs generalizing s with
  | nil => intro ev hev; simp [SerialCommand.readSerial] at hev
  | cons c xs ih =>
    intro ev hev
    have hev' : ev ∈ (s.readSerialByte cfg env c).2 ++
        (SerialCommand.readSerial cfg env (s.readSerialByte cfg env c).1 xs).events := hev
    rcases List.mem_append.1 hev' with h | h
    · rw [readSerialByte_events] at h
      split at h
      · exact ⟨_, h⟩
      · simp at h
    · obtain ⟨ts, hts⟩ := ih _ ev h
      exact ⟨ts, by rw [dispatchSpec_congr cfg env (readSerialByte_SameConfig cfg env s c)]; exact hts⟩

/-- A command event of `dispatchSpec` comes from the table lookup. -/
theorem dispatchSpec_command (cfg : Config) (env : Handlers) (s : SerialCommand)
    (ts : List (List Nat)) (k f : Nat) (r : List (Option (List Nat)))
    (h : Event.command k f r ∈ s.dispatchSpec cfg env ts) :
    ∃ c, s.lookup cfg c = some (k, f) := by
  cases ts with
  | nil => simp [SerialCommand.dispatchSpec] at h
  | cons c args =>
    refine ⟨c, ?_⟩
    cases hl : s.lookup cfg c with
    | some x =>
      obtain ⟨i, g⟩ := x
      simp only [SerialCommand.dispatchSpec, hl, List.mem_singleton, Event.command.injEq] at h
      rw [h.1, h.2.1]
    | none =>
      cases hd : s.defaultHandler with
      | some g => simp [SerialCommand.dispatchSpec, hl, hd] at h
      | none => simp [SerialCommand.dispatchSpec, hl, hd] at h

/-- A default event of `dispatchSpec` calls the default handler of the object. -/
theorem dispatchSpec_default (cfg : Config) (env : Handlers) (s : SerialCommand)
    (ts : List (List Nat)) (f : Nat) (a : List Nat) (r : List (Option (List Nat)))
    (h : Event.default f a r ∈ s.dispatchSpec cfg env ts) :
    s.defaultHandler = some f := by
  cases ts with
  | nil => simp [SerialCommand.dispatchSpec] at h
  | cons c args =>
    cases hl : s.lookup cfg c with
    | some x =>
      obtain ⟨i, g⟩ := x
      simp [SerialCommand.dispatchSpec, hl] at h
    | none =>
      cases hd : s.defaultHandler with
      | some g =>
        simp only [SerialCommand.dispatchSpec, hl, hd, List.mem_singleton,
          Event.default.injEq] at h
        rw [h.1]
      | none => simp [SerialCommand.dispatchSpec, hl, hd] at h

theorem dispatchSpec_length (cfg : Config) (env : Handlers) (s : SerialCommand)
    (ts : List (List Nat)) : (s.dispatchSpec cfg env ts).length ≤ 1 := by
  cases ts with
  | nil => simp [SerialCommand.dispatchSpec]
  | cons c args =>
    cases hl : s.lookup cfg c with
    | some x => simp [SerialCommand.dispatchSpec, hl]
    | none =>
      cases hd : s.defaultHandler with
      | some g => simp [SerialCommand.dispatchSpec, hl, hd]
      | none => simp [SerialCommand.dispatchSpec, hl, hd]

/-- An entry behind another entry of the same name is never the result of the lookup. -/
theorem lookup_ne_later {cfg : Config} {s : SerialCommand} (hs : s.Inv cfg) {i j : Nat}
    {ei ej : SerialCommandCallback} (hij : i < j) (hi : s.commandList[i]? = some ei)
    (hj : s.commandList[j]? = some ej)
    (hsame : (cstr ei.command).take cfg.SERIALCOMMAND_MAXCOMMANDLENGTH =
      (cstr ej.command).take cfg.SERIALCOMMAND_MAXCOMMANDLENGTH)
    (c : List Nat) (f : Nat) : s.lookup cfg c ≠ some (j, f) := by
  intro h
  unfold SerialCommand.lookup at h
  rw [Inv_take_table hs] at h
  obtain ⟨e, _, h2, _, h4, h5⟩ := matchCommand_some cfg c s.commandList 0 j f h
  rw [Nat.sub_zero] at h2 h5
  have he : e = ej := by rw [hj] at h2; exact (Option.some.inj h2).symm
  rw [he] at h4
  have h6 := h5 i ei hij hi
  apply h6
  rw [strncmp_eq_zero_iff] at h4 ⊢
  rw [h4, hsame]

/-- The handler calls on the terminator when no entry has the name of the first token. -/
theorem unmatched_events {cfg : Config} (env : Handlers) {s : SerialCommand}
    {c : List Nat} {args : List (List Nat)} (hs : s.Inv cfg)
    (hline : tokens s.delim s.line = c :: args)
    (hnone : ∀ e ∈ s.commandList, c.take cfg.SERIALCOMMAND_MAXCOMMANDLENGTH ≠
      (cstr e.command).take cfg.SERIALCOMMAND_MAXCOMMANDLENGTH) :
    (s.readSerialByte cfg env s.term).2 =
      s.dispatchSpec cfg env (c :: args) ∧ s.lookup cfg c = none := by
  rw [Inv_terminator_events env hs, hline]
  refine ⟨rfl, ?_⟩
  have hc := Inv_token_cstr hs hline
  unfold SerialCommand.lookup
  rw [Inv_take_table hs]
  apply matchCommand_none
  intro e he h0
  have := (strncmp_eq_zero_iff _ _ _).1 h0
  rw [hc] at this
  exact hnone e he this

/-- C11: when entry `j` of the table has the same name as an earlier entry `i`, no run
of `readSerial`, on any input, calls the handler of entry `j`; and a line whose first
token is that name calls the handler of entry `i` only, `i` being the first entry of
that name. -/
theorem later_duplicate_never_called (cfg : Config) (env : Handlers) (s : SerialCommand)
    (i j : Nat) (ei ej : SerialCommandCallback) (hs : s.Inv cfg) (hij : i < j)
    (hi : s.commandList[i]? = some ei) (hj : s.commandList[j]? = some ej)
    (hsame : (cstr ei.command).take cfg.SERIALCOMMAND_MAXCOMMANDLENGTH =
      (cstr ej.command).take cfg.SERIALCOMMAND_MAXCOMMANDLENGTH) :
    (∀ xs ev, ev ∈ (s.readSerial cfg env xs).events → ∀ f r, ev ≠ Event.command j f r) ∧
    (∀ c args, tokens s.delim s.line = c :: args →
      c.take cfg.SERIALCOMMAND_MAXCOMMANDLENGTH =
        (cstr ei.command).take cfg.SERIALCOMMAND_MAXCOMMANDLENGTH →
      (∀ k e', k < i → s.commandList[k]? = some e' →
        c.take cfg.SERIALCOMMAND_MAXCOMMANDLENGTH ≠
          (cstr e'.command).take cfg.SERIALCOMMAND_MAXCOMMANDLENGTH) →
      (s.readSerialByte cfg env s.term).2 =
        [Event.command i ei.function ((env.command ei.function).observe args)]) := by
  constructor
  · intro xs ev hev f r heq
    obtain ⟨ts, hts⟩ := readSerial_events_sound cfg env s xs ev hev
    rw [heq] at hts
    obtain ⟨c, hc⟩ := dispatchSpec_command cfg env s ts j f r hts
    exact lookup_ne_later hs hij hi hj hsame c f hc
  · intro c args hline hmatch hfirst
    exact first_match_events env hs hline hi hmatch hfirst

theorem foldl_setDefaultHandler (s : SerialCommand) (l : List (Option Nat)) :
    (l.foldl SerialCommand.setDefaultHandler s).commandList = s.commandList ∧
    (l.foldl SerialCommand.setDefaultHandler s).commandCount = s.commandCount ∧
    (l.foldl SerialCommand.setDefaultHandler s).delim = s.delim ∧
    (l.foldl SerialCommand.setDefaultHandler s).term = s.term ∧
    (l.foldl SerialCommand.setDefaultHandler s).buffer = s.buffer ∧
    (l.foldl SerialCommand.setDefaultHandler s).bufPos = s.bufPos ∧
    (l.foldl SerialCommand.setDefaultHandler s).last = s.last := by
  induction l generalizing s with
  | nil => exact ⟨rfl, rfl, rfl, rfl, rfl, rfl, rfl⟩
  | cons h l ih => exact ih (s.setDefaultHandler h)

theorem Inv_foldl_setDefaultHandler {cfg : Config} {s : SerialCommand} (hs : s.Inv cfg)
    (l : List (Option Nat)) : (l.foldl SerialCommand.setDefaultHandler s).Inv cfg := by
  induction l generalizing s with
  | nil => exact hs
  | cons h l ih => exact ih (Inv_setDefaultHandler hs h)

/-- C12: after any sequence of calls of `setDefaultHandler`, the default handler is the
one passed last: an unmatched line calls it, and only it, and calls no handler when
the null pointer was passed; the command table, the line buffer and the other members
are unchanged. -/
theorem setDefaultHandler_replaces (cfg : Config) (env : Handlers) (s : SerialCommand)
    (earlier : List (Option Nat)) (h : Option Nat) (c : List Nat) (args : List (List Nat))
    (hs : s.Inv cfg) (hline : tokens s.delim s.line = c :: args)
    (hnone : ∀ e ∈ s.commandList, c.take cfg.SERIALCOMMAND_MAXCOMMANDLENGTH ≠
      (cstr e.command).take cfg.SERIALCOMMAND_MAXCOMMANDLENGTH) :
    ((earlier.foldl SerialCommand.setDefaultHandler s).setDefaultHandler h).defaultHandler = h ∧
    ((earlier.foldl SerialCommand.setDefaultHandler s).setDefaultHandler h).commandList =
      s.commandList ∧
    ((earlier.foldl SerialCommand.setDefaultHandler s).setDefaultHandler h).commandCount =
      s.commandCount ∧
    ((earlier.foldl SerialCommand.setDefaultHandler s).setDefaultHandler h).buffer = s.buffer ∧
    ((earlier.foldl SerialCommand.setDefaultHandler s).setDefaultHandler h).bufPos = s.bufPos ∧
    ((earlier.foldl SerialCommand.setDefaultHandler s).setDefaultHandler h).last = s.last ∧
    (((earlier.foldl SerialCommand.setDefaultHandler s).setDefaultHandler h).readSerialByte
        cfg env s.term).2 =
      match h with
      | some f => [Event.default f c ((env.default f c).observe args)]
      | none => [] := by
  obtain ⟨f1, f2, f3, f4, f5, f6, f7⟩ := foldl_setDefaultHandler s earlier
  refine ⟨rfl, f1, f2, f5, f6, f7, ?_⟩
  have hinv : ((earlier.foldl SerialCommand.setDefaultHandler s).setDefaultHandler h).Inv cfg :=
    Inv_setDefaultHandler (Inv_foldl_setDefaultHandler hs earlier) h
  have hterm : ((earlier.foldl SerialCommand.setDefaultHandler s).setDefaultHandler h).term =
      s.term := f4
  have hline' : tokens ((earlier.foldl SerialCommand.setDefaultHandler s).setDefaultHandler h).delim
      ((earlier.foldl SerialCommand.setDefaultHandler s).setDefaultHandler h).line =
      c :: args := by
    have e1 : ((earlier.foldl SerialCommand.setDefaultHandler s).setDefaultHandler h).line =
        s.line := by
      show List.take _ _ = List.take _ _
      rw [show ((earlier.foldl SerialCommand.setDefaultHandler s).setDefaultHandler h).bufPos =
        s.bufPos from f6,
        show ((earlier.foldl SerialCommand.setDefaultHandler s).setDefaultHandler h).buffer =
        s.buffer from f5]
    rw [e1, show ((earlier.foldl SerialCommand.setDefaultHandler s).setDefaultHandler h).delim =
      s.delim from f3]
    exact hline
  have hnone' : ∀ e ∈ ((earlier.foldl SerialCommand.setDefaultHandler s).setDefaultHandler
      h).commandList, c.take cfg.SERIALCOMMAND_MAXCOMMANDLENGTH ≠
      (cstr e.command).take cfg.SERIALCOMMAND_MAXCOMMANDLENGTH := by
    intro e he
    exact hnone e (by rw [← f1]; exact he)
  obtain ⟨u1, u2⟩ := unmatched_events env hinv hline' hnone'
  rw [← hterm, u1]
  simp only [SerialCommand.dispatchSpec, u2]
  all_goals (cases h <;> rfl)

theorem Outcome_eta (o : Outcome) : ({ o with events := [] ++ o.events } : Outcome) = o := by
  cases o; rfl

theorem readSerial_cons (cfg : Config) (env : Handlers) (s : SerialCommand) (x : Nat)
    (xs : List Nat) :
    s.readSerial cfg env (x :: xs) =
      { state := (SerialCommand.readSerial cfg env (s.readSerialByte cfg env x).1 xs).state
        source := (SerialCommand.readSerial cfg env (s.readSerialByte cfg env x).1 xs).source
        events := (s.readSerialByte cfg env x).2 ++
          (SerialCommand.readSerial cfg env (s.readSerialByte cfg env x).1 xs).events } :=
  rfl

/-- A byte that is neither the terminator nor printable can be deleted from the input. -/
theorem readSerial_skip (cfg : Config) (env : Handlers) (s : SerialCommand) (c : Nat)
    (hc : c ≠ s.term) (hp : isprint c = false) (xs ys : List Nat) :
    s.readSerial cfg env (xs ++ c :: ys) = s.readSerial cfg env (xs ++ ys) := by
  induction xs generalizing s with
  | nil =>
    rw [List.nil_append, List.nil_append, readSerial_cons,
      readSerialByte_drop cfg env s c hc (Or.inl hp)]
    exact Outcome_eta _
  | cons x xs ih =>
    have hc' : c ≠ (s.readSerialByte cfg env x).1.term := by
      rw [← (readSerialByte_SameConfig cfg env s x).2.2.2.2]; exact hc
    rw [List.cons_append, List.cons_append, readSerial_cons, readSerial_cons, ih _ hc']

/-- C13: a byte that is neither the terminator nor printable leaves the whole object
unchanged and calls no handler; the input with that byte deleted gives the same result,
so a line ended by CR LF is dispatched as the line ended by LF. -/
theorem nonprintable_byte_ignored (cfg : Config) (env : Handlers) (s : SerialCommand) (c : Nat)
    (hc : c ≠ s.term) (hp : isprint c = false) :
    s.readSerialByte cfg env c = (s, []) ∧
    (∀ xs ys, s.readSerial cfg env (xs ++ c :: ys) = s.readSerial cfg env (xs ++ ys)) ∧
    (s.term = 10 → ∀ line,
      s.readSerial cfg env (line ++ [13, 10]) = s.readSerial cfg env (line ++ [10])) := by
  refine ⟨readSerialByte_drop cfg env s c hc (Or.inl hp), readSerial_skip cfg env s c hc hp, ?_⟩
  intro ht line
  exact readSerial_skip cfg env s 13 (by rw [ht]; decide) rfl line [10]

theorem readSerial_source (cfg : Config) (env : Handlers) (s : SerialCommand) (xs : List Nat) :
    (s.readSerial cfg env xs).source = [] := by
  induction xs generalizing s with
  | nil => rfl
  | cons c xs ih => exact ih _

theorem readSerial_state_foldl (cfg : Config) (env : Handlers) (s : SerialCommand)
    (xs : List Nat) :
    (s.readSerial cfg env xs).state = xs.foldl (fun t c => (t.readSerialByte cfg env c).1) s := by
  induction xs generalizing s with
  | nil => rfl
  | cons c xs ih => exact ih _

theorem readSerialByte_events_dispatch (cfg : Config) (env : Handlers) (s : SerialCommand)
    (c : Nat) :
    (s.readSerialByte cfg env c).2 = if c = s.term then (s.dispatch cfg env).2 else [] := by
  rw [readSerialByte_events, dispatch_events]

theorem dispatchCycles_length (cfg : Config) (env : Handlers) (s : SerialCommand)
    (xs : List Nat) : (s.dispatchCycles cfg env xs).length = xs.count s.term := by
  induction xs generalizing s with
  | nil => rfl
  | cons c xs ih =>
    have ht : (s.readSerialByte cfg env c).1.term = s.term :=
      (readSerialByte_SameConfig cfg env s c).2.2.2.2.symm
    simp only [SerialCommand.dispatchCycles, List.length_append, ih, ht, List.count_cons]
    by_cases hc : c = s.term
    · simp [hc]; omega
    · simp [hc]

theorem dispatchCycles_events (cfg : Config) (env : Handlers) (s : SerialCommand)
    (xs : List Nat) :
    (s.readSerial cfg env xs).events =
      (s.dispatchCycles cfg env xs).flatMap (fun t => (t.dispatch cfg env).2) := by
  induction xs generalizing s with
  | nil => rfl
  | cons c xs ih =>
    rw [readSerial_cons]
    simp only [SerialCommand.dispatchCycles, List.flatMap_append, ← ih,
      readSerialByte_events_dispatch]
    by_cases hc : c = s.term
    · simp [hc]
    · simp [hc]

/-- The function `readSerial` on the bytes `xs`: it leaves no byte, its final object is
the fold of the loop body over the bytes, the terminator branch is entered once for
each terminator byte, the handler calls are those of these dispatch cycles, and the
bytes after a terminator are read by the object that the dispatch cycle has left. -/
theorem readSerial_drains_source (cfg : Config) (env : Handlers) (s : SerialCommand)
    (xs : List Nat) :
    (s.readSerial cfg env xs).source = [] ∧
    (s.readSerial cfg env xs).state =
      xs.foldl (fun t c => (t.readSerialByte cfg env c).1) s ∧
    (s.dispatchCycles cfg env xs).length = xs.count s.term ∧
    (s.readSerial cfg env xs).events =
      (s.dispatchCycles cfg env xs).flatMap (fun t => (t.dispatch cfg env).2) ∧
    (∀ before after, xs = before ++ s.term :: after →
      (s.readSerial cfg env xs).events =
        (s.readSerial cfg env before).events ++
          (((s.readSerial cfg env before).state.dispatch cfg env).2 ++
            (SerialCommand.readSerial cfg env
              ((s.readSerial cfg env before).state.dispatch cfg env).1 after).events) ∧
      (s.readSerial cfg env xs).state =
        (SerialCommand.readSerial cfg env
          ((s.readSerial cfg env before).state.dispatch cfg env).1 after).state) := by
  refine ⟨readSerial_source cfg env s xs, readSerial_state_foldl cfg env s xs,
    dispatchCycles_length cfg env s xs, dispatchCycles_events cfg env s xs, ?_⟩
  intro before after hx
  have ht : s.term = (s.readSerial cfg env before).state.term :=
    (readSerial_SameConfig cfg env s before).2.2.2.2
  obtain ⟨h1, h2⟩ := readSerial_append cfg env s before (s.term :: after)
  rw [hx, h1, h2, readSerial_cons, ht, readSerialByte_term]
  exact ⟨rfl, rfl⟩

/-- C17: a call of `readSerial` on the bytes `xs ++ ys` makes the handler calls of a call
on `xs` followed by those of a call on `ys`, and leaves the same object (and an empty
source) as the two calls. -/
theorem readSerial_split_input (cfg : Config) (env : Handlers) (s : SerialCommand)
    (xs ys : List Nat) :
    (s.readSerial cfg env (xs ++ ys)).events =
      (s.readSerial cfg env xs).events ++
        ((s.readSerial cfg env xs).state.readSerial cfg env ys).events ∧
    (s.readSerial cfg env (xs ++ ys)).state =
      ((s.readSerial cfg env xs).state.readSerial cfg env ys).state ∧
    (s.readSerial cfg env (xs ++ ys)).source =
      ((s.readSerial cfg env xs).state.readSerial cfg env ys).source :=
  ⟨(readSerial_append cfg env s xs ys).2, (readSerial_append cfg env s xs ys).1,
    (readSerial_source cfg env s _).trans (readSerial_source cfg env _ ys).symm⟩

theorem readSerial_events_length (cfg : Config) (env : Handlers) (s : SerialCommand)
    (xs : List Nat) : (s.readSerial cfg env xs).events.length ≤ xs.count s.term := by
  induction xs generalizing s with
  | nil => exact Nat.le_refl _
  | cons c xs ih =>
    have ht : (s.readSerialByte cfg env c).1.term = s.term :=
      (readSerialByte_SameConfig cfg env s c).2.2.2.2.symm
    have h1 := ih (s.readSerialByte cfg env c).1
    rw [ht] at h1
    rw [readSerial_cons]
    simp only [List.length_append, List.count_cons]
    have h2 : (s.readSerialByte cfg env c).2.length ≤ if c = s.term then 1 else 0 := by
      rw [readSerialByte_events]
      split
      · exact dispatchSpec_length cfg env s _
      · exact Nat.le_refl _
    have h3 : (if c = s.term then 1 else 0) = if (c == s.term) = true then 1 else 0 := by
      by_cases hc : c = s.term <;> simp [hc]
    omega

/-- C18: one byte leads to at most one handler call, and to none when it is not the
terminator; a command handler and the default handler are never both called for one
byte; so a run of `readSerial` makes at most as many handler calls as its input has
terminator bytes. -/
theorem handler_calls_bounded_by_terminators (cfg : Config) (env : Handlers)
    (s : SerialCommand) (c : Nat) (xs : List Nat) :
    (s.readSerialByte cfg env c).2.length ≤ 1 ∧
    (c ≠ s.term → (s.readSerialByte cfg env c).2 = []) ∧
    (∀ i f r g a r', ¬ (Event.command i f r ∈ (s.readSerialByte cfg env c).2 ∧
      Event.default g a r' ∈ (s.readSerialByte cfg env c).2)) ∧
    (s.readSerial cfg env xs).events.length ≤ xs.count s.term := by
  have hlen : (s.readSerialByte cfg env c).2.length ≤ 1 := by
    rw [readSerialByte_events]
    split
    · exact dispatchSpec_length cfg env s _
    · exact Nat.zero_le _
  refine ⟨hlen, ?_, ?_, readSerial_events_length cfg env s xs⟩
  · intro hc
    rw [readSerialByte_events, if_neg hc]
  · intro i f r g a r' h
    obtain ⟨h1, h2⟩ := h
    cases hl : (s.readSerialByte cfg env c).2 with
    | nil => rw [hl] at h1; simp at h1
    | cons e l =>
      rw [hl] at h1 h2 hlen
      have hnil : l = [] := by
        cases l with
        | nil => rfl
        | cons e' l' => simp at hlen
      rw [hnil] at h1 h2
      rw [List.mem_singleton] at h1 h2
      rw [← h1] at h2
      exact Event.noConfusion h2

theorem cstr_replicate_zero (n : Nat) : cstr (List.replicate n 0) = [] := by
  cases n with
  | zero => rfl
  | succ n => rw [List.replicate_succ]; exact cstr_cons_zero _

/-- The name `strncpy` stores, read over the maximum length, is the name cut to it. -/
theorem cstr_strncpy {name : List Nat} (hname : ∀ x ∈ name, x ≠ 0) (n : Nat) :
    (cstr (strncpy name n)).take n = name.take n := by
  unfold strncpy
  rw [cstr_of_ne hname,
    cstr_append (fun x hx => hname x (List.mem_of_mem_take hx)), cstr_replicate_zero,
    List.append_nil, List.take_take, Nat.min_self]

theorem strncmp_strncpy {tok name : List Nat} (htok : ∀ x ∈ tok, x ≠ 0)
    (hname : ∀ x ∈ name, x ≠ 0) (n : Nat) :
    strncmp tok (strncpy name n) n = 0 ↔ tok.take n = name.take n := by
  rw [strncmp_eq_zero_iff, cstr_of_ne htok, cstr_strncpy hname]

/-- C15: a token and the name stored for an entry match exactly when they are equal
byte for byte over their first `SERIALCOMMAND_MAXCOMMANDLENGTH` characters, and the
table lookup finds the entry exactly then; so a token that differs from the stored
name in letter case only, a token that is a proper initial segment of the stored
name, and a token that extends a name shorter than the maximum do not match. -/
theorem match_is_bytewise_equality (cfg : Config) (tok name : List Nat)
    (htok : ∀ x ∈ tok, x ≠ 0) (hname : ∀ x ∈ name, x ≠ 0) :
    (strncmp tok (strncpy name cfg.SERIALCOMMAND_MAXCOMMANDLENGTH)
        cfg.SERIALCOMMAND_MAXCOMMANDLENGTH = 0 ↔
      tok.take cfg.SERIALCOMMAND_MAXCOMMANDLENGTH =
        name.take cfg.SERIALCOMMAND_MAXCOMMANDLENGTH) ∧
    (∀ f i, SerialCommand.matchCommand cfg tok
        [{ command := strncpy name cfg.SERIALCOMMAND_MAXCOMMANDLENGTH, function := f }] i =
      if tok.take cfg.SERIALCOMMAND_MAXCOMMANDLENGTH =
        name.take cfg.SERIALCOMMAND_MAXCOMMANDLENGTH then some (i, f) else none) ∧
    (tok.map toupper = (name.take cfg.SERIALCOMMAND_MAXCOMMANDLENGTH).map toupper →
      tok ≠ name.take cfg.SERIALCOMMAND_MAXCOMMANDLENGTH →
      strncmp tok (strncpy name cfg.SERIALCOMMAND_MAXCOMMANDLENGTH)
        cfg.SERIALCOMMAND_MAXCOMMANDLENGTH ≠ 0) ∧
    (tok <+: name.take cfg.SERIALCOMMAND_MAXCOMMANDLENGTH →
      tok ≠ name.take cfg.SERIALCOMMAND_MAXCOMMANDLENGTH →
      strncmp tok (strncpy name cfg.SERIALCOMMAND_MAXCOMMANDLENGTH)
        cfg.SERIALCOMMAND_MAXCOMMANDLENGTH ≠ 0) ∧
    (name.length < cfg.SERIALCOMMAND_MAXCOMMANDLENGTH → name <+: tok → tok ≠ name →
      strncmp tok (strncpy name cfg.SERIALCOMMAND_MAXCOMMANDLENGTH)
        cfg.SERIALCOMMAND_MAXCOMMANDLENGTH ≠ 0) := by
  have hiff := strncmp_strncpy htok hname cfg.SERIALCOMMAND_MAXCOMMANDLENGTH
  have hstored : (name.take cfg.SERIALCOMMAND_MAXCOMMANDLENGTH).length ≤
      cfg.SERIALCOMMAND_MAXCOMMANDLENGTH := by
    rw [List.length_take]; exact Nat.min_le_left _ _
  refine ⟨hiff, ?_, ?_, ?_, ?_⟩
  · intro f i
    by_cases h : tok.take cfg.SERIALCOMMAND_MAXCOMMANDLENGTH =
        name.take cfg.SERIALCOMMAND_MAXCOMMANDLENGTH
    · simp only [SerialCommand.matchCommand, hiff.2 h, h, if_true]
    · have h0 : ¬ strncmp tok (strncpy name cfg.SERIALCOMMAND_MAXCOMMANDLENGTH)
          cfg.SERIALCOMMAND_MAXCOMMANDLENGTH = 0 := fun h0 => h (hiff.1 h0)
      simp only [SerialCommand.matchCommand, h0, h, if_false]
  · intro hcase hne h0
    have hlen : tok.length = (name.take cfg.SERIALCOMMAND_MAXCOMMANDLENGTH).length := by
      have := congrArg List.length hcase
      simpa using this
    have h1 := hiff.1 h0
    rw [List.take_of_length_le (by omega)] at h1
    exact hne h1
  · intro hpre hne h0
    have hlen := hpre.length_le
    have h1 := hiff.1 h0
    rw [List.take_of_length_le (by omega)] at h1
    exact hne h1
  · intro hshort hext hne h0
    have h1 := hiff.1 h0
    rw [List.take_of_length_le (Nat.le_of_lt hshort)] at h1
    obtain ⟨ext, hext⟩ := hext
    have hlen := congrArg List.length h1
    rw [List.length_take, ← hext, List.length_append] at hlen
    have hext0 : ext.length = 0 := by omega
    have : ext = [] := List.length_eq_zero.1 hext0
    rw [this, List.append_nil] at hext
    exact hne hext.symm

theorem strtok_r_lastPastStart (mem delim : List Nat) (s last : Option Nat)
    (h : s ≠ none ∨ lastPastStart last) : lastPastStart (strtok_r mem s delim last).2.2 := by
  unfold strtok_r
  split
  · rename_i heq
    cases s with
    | some p => simp at heq
    | none =>
      rcases h with h | h
      · exact absurd rfl h
      · exact h
  · dsimp only
    split
    · intro p hp; simp at hp
    · split
      · intro p hp; simp at hp
      · intro p hp
        have hp' := Option.some.inj hp
        omega

theorem run_pending (h : Handler) (s : SerialCommand) (hl : lastPastStart s.last) :
    (h.run s).1.pending = s.pending.drop (h.run s).2.length ∧
    lastPastStart (h.run s).1.last := by
  induction h generalizing s with
  | ret => exact ⟨rfl, hl⟩
  | next k ih =>
    obtain ⟨_, h2, _, _, _⟩ := next_spec s
    have hl' : lastPastStart s.next.2.last :=
      strtok_r_lastPastStart s.buffer s.delim none s.last (Or.inr hl)
    obtain ⟨i1, i2⟩ := ih (s.next.1.map (cstrAt s.next.2.buffer)) s.next.2 hl'
    simp only [Handler.run, List.length_cons]
    refine ⟨?_, i2⟩
    rw [i1, h2, List.drop_tail]

theorem clearBuffer_pending (t : SerialCommand) (hl : lastPastStart t.last) :
    t.clearBuffer.pending = t.pending := by
  unfold SerialCommand.pending SerialCommand.clearBuffer remaining
  dsimp only
  cases ht : t.last with
  | none => rfl
  | some p =>
    dsimp only
    have hp : 0 < p := hl p ht
    unfold cstrAt
    rw [List.drop_set_of_lt _ _ hp]

/-- The tokens left for `next()` after the terminator branch: the argument tokens that
the handler has not asked for. -/
theorem dispatch_pending (cfg : Config) (env : Handlers) (s : SerialCommand) :
    (s.dispatch cfg env).1.pending =
      (tokens s.delim (cstr s.buffer)).tail.drop
        ((s.dispatch cfg env).2.flatMap Event.nexts).length := by
  obtain ⟨_, h2⟩ := strtok_r_start s.buffer s.delim 0 s.last
  have hl := strtok_r_lastPastStart s.buffer s.delim (some 0) s.last (Or.inl (by simp))
  rw [cstrAt_zero] at h2
  unfold SerialCommand.dispatch
  generalize strtok_r s.buffer (some 0) s.delim s.last = r at h2 hl
  obtain ⟨tok, mem, last⟩ := r
  dsimp only at h2 hl ⊢
  have hp1 : SerialCommand.pending { s with buffer := mem, last := last } =
      (tokens s.delim (cstr s.buffer)).tail := h2
  cases tok with
  | none =>
    dsimp only
    rw [clearBuffer_pending _ hl, hp1]
    rfl
  | some p =>
    dsimp only
    split
    · rename_i i f _
      obtain ⟨r1, r2⟩ := run_pending (env.command f) { s with buffer := mem, last := last } hl
      rw [clearBuffer_pending _ r2, r1, hp1]
      simp [Event.nexts]
    · split
      · rename_i f _
        obtain ⟨r1, r2⟩ := run_pending (env.default f (cstrAt mem p))
          { s with buffer := mem, last := last } hl
        rw [clearBuffer_pending _ r2, r1, hp1]
        simp [Event.nexts]
      · rw [clearBuffer_pending _ hl, hp1]
        rfl

/-- C16: after the terminator branch has run on a line with the tokens `c, t1, ..., tN`
and has reset the line buffer, and before another byte is read, calls of `next()`
return the argument tokens that the handler has not asked for, in order, and then
null results; the reset writes the first byte of the buffer only. -/
theorem next_valid_after_reset (cfg : Config) (env : Handlers) (s : SerialCommand)
    (c : List Nat) (args : List (List Nat)) (m : Nat) (hs : s.Inv cfg)
    (hline : tokens s.delim s.line = c :: args) :
    ((Handler.nextTimes m).run (s.readSerialByte cfg env s.term).1).2 =
      nextResults
        (args.drop ((s.readSerialByte cfg env s.term).2.flatMap Event.nexts).length) m ∧
    (∀ t : SerialCommand, t.clearBuffer.buffer.drop 1 = t.buffer.drop 1) := by
  constructor
  · rw [(run_spec _ _).1, observe_nextTimes, readSerialByte_term, dispatch_pending,
      Inv_cstr hs, hline, List.tail_cons]
  · intro t
    exact List.drop_set_of_lt _ _ (Nat.lt_succ_self 0)

theorem Inv_goDispatcher : goDispatcher.Inv exampleConfig :=
  Inv_readSerial _
    (Inv_addCommand (Inv_addCommand (Inv_new exampleConfig (List.replicate 9 0) rfl) _ _) _ _) _

/-- With `GO` registered twice, the line `GO` calls the handler 1 of the first entry,
and the handler of the second entry is not called. -/
theorem later_duplicate_never_called_witness :
    (goDispatcher.readSerialByte exampleConfig Handlers.silent 10).2 =
      [Event.command 0 1 []] ∧
    Event.command 1 2 [] ∉ (goDispatcher.readSerial exampleConfig Handlers.silent
      [10, 71, 79, 10]).events :=
  have h := later_duplicate_never_called exampleConfig Handlers.silent goDispatcher 0 1
    { command := [71, 79, 0, 0, 0, 0, 0, 0], function := 1 }
    { command := [71, 79, 0, 0, 0, 0, 0, 0], function := 2 }
    Inv_goDispatcher (by decide) (by decide) (by decide) (by decide)
  ⟨h.2 [71, 79] [] (by decide) (by decide) (fun k _ hk _ => absurd hk (Nat.not_lt_zero k)),
    fun hmem => h.1 [10, 71, 79, 10] _ hmem 2 [] rfl⟩

/-- After `setDefaultHandler` with the handlers 5, null and 7, the unmatched line `led`
calls the handler 7. -/
theorem setDefaultHandler_replaces_witness :
    ((([some 5, none].foldl SerialCommand.setDefaultHandler
      (ledDispatcherAfter Handlers.silent [108, 101, 100])).setDefaultHandler
      (some 7)).readSerialByte exampleConfig Handlers.silent 10).2 =
      [Event.default 7 [108, 101, 100] []] :=
  (setDefaultHandler_replaces exampleConfig Handlers.silent
    (ledDispatcherAfter Handlers.silent [108, 101, 100]) [some 5, none] (some 7)
    [108, 101, 100] [] (Inv_ledDispatcherAfter _ _) (by decide) (by decide)).2.2.2.2.2.2

/-- The example dispatcher ignores a carriage return: `LED`, CR, LF gives what `LED`,
LF gives. -/
theorem nonprintable_byte_ignored_witness :
    ledDispatcher.readSerialByte exampleConfig Handlers.silent 13 = (ledDispatcher, []) ∧
    ledDispatcher.readSerial exampleConfig Handlers.silent ([76, 69, 68] ++ [13, 10]) =
      ledDispatcher.readSerial exampleConfig Handlers.silent ([76, 69, 68] ++ [10]) :=
  have h := nonprintable_byte_ignored exampleConfig Handlers.silent ledDispatcher 13
    (by decide) rfl
  ⟨h.1, h.2.2 rfl [76, 69, 68]⟩

/-- The token `led` does not match the name `LED`, and the line `led` reaches the
default handler of the example dispatcher. -/
theorem match_is_bytewise_equality_witness :
    strncmp [108, 101, 100] (strncpy [76, 69, 68] 8) 8 ≠ 0 ∧
    (ledDispatcher.readSerial exampleConfig Handlers.silent [108, 101, 100, 10]).events =
      [Event.default 2 [108, 101, 100] []] :=
  ⟨(match_is_bytewise_equality exampleConfig [108, 101, 100] [76, 69, 68] (by decide)
    (by decide)).2.2.1 (by decide) (by decide), by decide⟩

/-- The handler of `SET` takes `10` from the line `SET 10 20`; after the reset `next()`
returns `20` and then a null result. -/
theorem next_valid_after_reset_witness :
    (setDispatcher.readSerialByte defaultConfig Handlers.oneNext 10).2 =
      [Event.command 0 3 [some [49, 48]]] ∧
    ((Handler.nextTimes 2).run
      (setDispatcher.readSerialByte defaultConfig Handlers.oneNext 10).1).2 =
      [some [50, 48], none] :=
  ⟨by decide,
    (next_valid_after_reset defaultConfig Handlers.oneNext setDispatcher [83, 69, 84]
      [[49, 48], [50, 48]] 2
      (Inv_readSerial _ (Inv_addCommand (Inv_new defaultConfig (List.replicate 33 0) rfl) _ _) _)
      (by decide)).1⟩

/-- The function `readSerial` on the input `LED`, LF, `led`, LF: no byte is left, there
are two dispatch cycles, and the handler 1 is called before the default handler. -/
theorem readSerial_drains_source_witness :
    (ledDispatcher.readSerial exampleConfig Handlers.silent
      [76, 69, 68, 10, 108, 101, 100, 10]).source = [] ∧
    (ledDispatcher.dispatchCycles exampleConfig Handlers.silent
      [76, 69, 68, 10, 108, 101, 100, 10]).length = 2 ∧
    (ledDispatcher.readSerial exampleConfig Handlers.silent
      [76, 69, 68, 10, 108, 101, 100, 10]).events =
      [Event.command 0 1 [], Event.default 2 [108, 101, 100] []] :=
  have h := readSerial_drains_source exampleConfig Handlers.silent ledDispatcher
    [76, 69, 68, 10, 108, 101, 100, 10]
  ⟨h.1, h.2.2.1, (h.2.2.2.2 [76, 69, 68] [108, 101, 100, 10] rfl).1⟩

/-- The input `LED`, LF, `led`, LF, read in one call or split inside the first line. -/
theorem readSerial_split_input_witness :
    (ledDispatcher.readSerial exampleConfig Handlers.silent
      ([76, 69] ++ [68, 10, 108, 101, 100, 10])).events =
      [] ++ [Event.command 0 1 [], Event.default 2 [108, 101, 100] []] :=
  (readSerial_split_input exampleConfig Handlers.silent ledDispatcher [76, 69]
    [68, 10, 108, 101, 100, 10]).1

/-- The input `LED`, LF, LF, `led`, LF has three terminators and leads to at most three
handler calls. -/
theorem handler_calls_bounded_by_terminators_witness :
    (ledDispatcher.readSerialByte exampleConfig Handlers.silent 76).2 = [] ∧
    (ledDispatcher.readSerial exampleConfig Handlers.silent
      [76, 69, 68, 10, 10, 108, 101, 100, 10]).events.length ≤ 3 :=
  have h := handler_calls_bounded_by_terminators exampleConfig Handlers.silent ledDispatcher 76
    [76, 69, 68, 10, 10, 108, 101, 100, 10]
  ⟨h.2.1 (by decide), h.2.2.2⟩

theorem flatMap_feed_nil {feed : Event → List Nat} (hfeed : ∀ e, feed e = [])
    (l : List Event) : l.flatMap feed = [] := by
  induction l with
  | nil => rfl
  | cons e l ih => rw [List.flatMap_cons, hfeed, ih]; rfl

theorem readSerialLoop_nil (cfg : Config) (env : Handlers) (feed : Event → List Nat)
    (fuel : Nat) (s : SerialCommand) :
    s.readSerialLoop cfg env feed fuel [] = some { state := s, source := [], trace := [] } := by
  cases fuel <;> rfl

theorem readSerialLoop_zero_cons (cfg : Config) (env : Handlers) (feed : Event → List Nat)
    (s : SerialCommand) (c : Nat) (xs : List Nat) :
    s.readSerialLoop cfg env feed 0 (c :: xs) = none := by
  simp [SerialCommand.readSerialLoop, Source.available]

theorem readSerialLoop_succ_cons (cfg : Config) (env : Handlers) (feed : Event → List Nat)
    (fuel : Nat) (s : SerialCommand) (c : Nat) (xs : List Nat) :
    s.readSerialLoop cfg env feed (fuel + 1) (c :: xs) =
      match SerialCommand.readSerialLoop cfg env feed fuel (s.readSerialByte cfg env c).1
          (xs ++ (s.readSerialByte cfg env c).2.flatMap feed) with
      | none => none
      | some o =>
        some { o with
          trace :=
            { inChar := c
              before := s
              after := (s.readSerialByte cfg env c).1
              events := (s.readSerialByte cfg env c).2 } :: o.trace } := by
  simp [SerialCommand.readSerialLoop, Source.available, Source.read]

/-- With enough fuel the loop returns: the source is empty, the object is that of
`readSerial`, and the iterations are those of the bytes in their order. -/
theorem readSerialLoop_enough (cfg : Config) (env : Handlers) {feed : Event → List Nat}
    (hfeed : ∀ e, feed e = []) (fuel : Nat) (s : SerialCommand) (xs : List Nat)
    (h : xs.length ≤ fuel) :
    s.readSerialLoop cfg env feed fuel xs =
      some { state := (s.readSerial cfg env xs).state, source := [],
             trace := s.iterations cfg env xs } := by
  induction xs generalizing s fuel with
  | nil => exact readSerialLoop_nil cfg env feed fuel s
  | cons c xs ih =>
    cases fuel with
    | zero => simp at h
    | succ fuel =>
      rw [readSerialLoop_succ_cons, flatMap_feed_nil hfeed, List.append_nil,
        ih fuel _ (by simpa using h)]
      rfl

/-- With less fuel than bytes waiting the loop has not returned. -/
theorem readSerialLoop_short (cfg : Config) (env : Handlers) {feed : Event → List Nat}
    (hfeed : ∀ e, feed e = []) (fuel : Nat) (s : SerialCommand) (xs : List Nat)
    (h : fuel < xs.length) : s.readSerialLoop cfg env feed fuel xs = none := by
  induction xs generalizing s fuel with
  | nil => simp at h
  | cons c xs ih =>
    cases fuel with
    | zero => exact readSerialLoop_zero_cons cfg env feed s c xs
    | succ fuel =>
      rw [readSerialLoop_succ_cons, flatMap_feed_nil hfeed, List.append_nil,
        ih fuel _ (by simpa using h)]

theorem iterations_inChar (cfg : Config) (env : Handlers) (s : SerialCommand) (xs : List Nat) :
    (s.iterations cfg env xs).map Iteration.inChar = xs := by
  induction xs generalizing s with
  | nil => rfl
  | cons c xs ih => simp only [SerialCommand.iterations, List.map_cons, ih]

theorem iterations_body (cfg : Config) (env : Handlers) (s : SerialCommand) (xs : List Nat) :
    ∀ it ∈ s.iterations cfg env xs,
      (it.after, it.events) = it.before.readSerialByte cfg env it.inChar := by
  induction xs generalizing s with
  | nil => intro it h; simp [SerialCommand.iterations] at h
  | cons c xs ih =>
    intro it h
    simp only [SerialCommand.iterations, List.mem_cons] at h
    rcases h with rfl | h
    · rfl
    · exact ih _ it h

theorem iterations_head (cfg : Config) (env : Handlers) (s : SerialCommand) (xs : List Nat) :
    ∀ it, (s.iterations cfg env xs).head? = some it → it.before = s := by
  cases xs with
  | nil => intro it h; simp [SerialCommand.iterations] at h
  | cons c xs =>
    intro it h
    simp only [SerialCommand.iterations, List.head?_cons, Option.some.injEq] at h
    rw [← h]

theorem iterations_chain (cfg : Config) (env : Handlers) (s : SerialCommand) (xs : List Nat) :
    List.Chain' (fun a b => a.after = b.before) (s.iterations cfg env xs) := by
  induction xs generalizing s with
  | nil => exact List.chain'_nil
  | cons c xs ih =>
    simp only [SerialCommand.iterations]
    rw [List.chain'_cons']
    refine ⟨?_, ih _⟩
    intro it hit
    exact (iterations_head cfg env _ xs it hit).symm

theorem iterations_last (cfg : Config) (env : Handlers) (s : SerialCommand) (xs : List Nat) :
    ∀ it, (s.iterations cfg env xs).getLast? = some it →
      it.after = (s.readSerial cfg env xs).state := by
  induction xs generalizing s with
  | nil => intro it h; simp [SerialCommand.iterations] at h
  | cons c xs ih =>
    intro it h
    cases xs with
    | nil =>
      simp only [SerialCommand.iterations, List.getLast?_singleton, Option.some.injEq] at h
      rw [← h]; rfl
    | cons d xs =>
      have h' : (SerialCommand.iterations cfg env (s.readSerialByte cfg env c).1
          (d :: xs)).getLast? = some it := by
        simpa [SerialCommand.iterations] using h
      exact ih _ it h'

theorem iterations_events (cfg : Config) (env : Handlers) (s : SerialCommand) (xs : List Nat) :
    (s.iterations cfg env xs).flatMap Iteration.events = (s.readSerial cfg env xs).events := by
  induction xs generalizing s with
  | nil => rfl
  | cons c xs ih =>
    rw [readSerial_cons]
    simp only [SerialCommand.iterations, List.flatMap_cons, ih]

theorem iterations_before_term (cfg : Config) (env : Handlers) (s : SerialCommand)
    (xs : List Nat) : ∀ it ∈ s.iterations cfg env xs, it.before.term = s.term := by
  induction xs generalizing s with
  | nil => intro it h; simp [SerialCommand.iterations] at h
  | cons c xs ih =>
    intro it h
    simp only [SerialCommand.iterations, List.mem_cons] at h
    rcases h with rfl | h
    · rfl
    · rw [ih _ it h]
      exact (readSerialByte_SameConfig cfg env s c).2.2.2.2.symm

theorem iterations_count (cfg : Config) (env : Handlers) (s : SerialCommand) (xs : List Nat) :
    ((s.iterations cfg env xs).filter (fun it => decide (it.inChar = it.before.term))).length =
      xs.count s.term := by
  induction xs generalizing s with
  | nil => rfl
  | cons c xs ih =>
    have ht : (s.readSerialByte cfg env c).1.term = s.term :=
      (readSerialByte_SameConfig cfg env s c).2.2.2.2.symm
    simp only [SerialCommand.iterations, List.filter_cons, List.count_cons]
    by_cases hc : c = s.term
    · subst hc
      simp [ih, ht]
    · simp [hc, ih, ht]

theorem iterations_count_byte (cfg : Config) (env : Handlers) (s : SerialCommand)
    (xs : List Nat) (t : Nat) :
    ((s.iterations cfg env xs).filter (fun it => decide (it.inChar = t))).length =
      xs.count t := by
  induction xs generalizing s with
  | nil => rfl
  | cons c xs ih =>
    simp only [SerialCommand.iterations, List.filter_cons, List.count_cons]
    by_cases hc : c = t
    · subst hc
      simp [ih]
    · simp [hc, ih]

/-- C14: with handlers that write no byte to the source, a call of `readSerial` on a
source with the bytes `xs` waiting returns: the loop run for as many iterations as
there are bytes, or more, has returned with the source empty, and run for fewer it
has not.  The iterations read the bytes of `xs`, each once, in their order; each
starts from the object the one before has left, the handler included; an iteration
runs the terminator branch when its byte is the terminator and calls no handler
otherwise, so there is one dispatch cycle for each terminator byte, in input order. -/
theorem readSerial_loop_terminates (cfg : Config) (env : Handlers) (feed : Event → List Nat)
    (s : SerialCommand) (xs : List Nat) (hfeed : ∀ e, feed e = []) :
    ∃ trace : List Iteration,
      (∀ fuel, xs.length ≤ fuel →
        s.readSerialLoop cfg env feed fuel xs =
          some { state := (s.readSerial cfg env xs).state, source := [], trace := trace }) ∧
      (∀ fuel, fuel < xs.length → s.readSerialLoop cfg env feed fuel xs = none) ∧
      trace.map Iteration.inChar = xs ∧
      (∀ it, trace.head? = some it → it.before = s) ∧
      List.Chain' (fun a b => a.after = b.before) trace ∧
      (∀ it, trace.getLast? = some it → it.after = (s.readSerial cfg env xs).state) ∧
      (∀ it ∈ trace,
        (it.after, it.events) = it.before.readSerialByte cfg env it.inChar ∧
        (it.inChar = s.term → (it.after, it.events) = it.before.dispatch cfg env) ∧
        (it.inChar ≠ s.term → it.events = [])) ∧
      (trace.filter (fun it => decide (it.inChar = s.term))).length = xs.count s.term ∧
      trace.flatMap Iteration.events = (s.readSerial cfg env xs).events := by
  refine ⟨s.iterations cfg env xs,
    fun fuel h => readSerialLoop_enough cfg env hfeed fuel s xs h,
    fun fuel h => readSerialLoop_short cfg env hfeed fuel s xs h,
    iterations_inChar cfg env s xs, iterations_head cfg env s xs,
    iterations_chain cfg env s xs, iterations_last cfg env s xs, ?_,
    iterations_count_byte cfg env s xs s.term, iterations_events cfg env s xs⟩
  intro it hit
  have hbody := iterations_body cfg env s xs it hit
  have hterm := iterations_before_term cfg env s xs it hit
  refine ⟨hbody, ?_, ?_⟩
  · intro hc
    rw [hbody, hc, ← hterm, readSerialByte_term]
  · intro hc
    have h2 : it.events = (it.before.readSerialByte cfg env it.inChar).2 :=
      congrArg Prod.snd hbody
    rw [h2, readSerialByte_events, if_neg (by rw [hterm]; exact hc)]

/-- A handler that writes to the source can keep the loop from returning: with the
default handler answering each unknown line `X` by sending the line `X`, the loop has
not returned after any number of iterations. -/
theorem readSerialLoop_echo_never_returns (fuel : Nat) :
    echoDispatcher.readSerialLoop exampleConfig Handlers.silent echoFeed fuel [88, 10] = none ∧
    (echoDispatcher.readSerialByte exampleConfig Handlers.silent 88).1.readSerialLoop
      exampleConfig Handlers.silent echoFeed fuel [10] = none := by
  have h1 : (echoDispatcher.readSerialByte exampleConfig Handlers.silent 88).2 = [] := by
    decide
  have h2 : ((echoDispatcher.readSerialByte exampleConfig Handlers.silent 88).1.readSerialByte
      exampleConfig Handlers.silent 10) = (echoDispatcher, [Event.default 2 [88] []]) := by
    decide
  induction fuel with
  | zero => exact ⟨readSerialLoop_zero_cons _ _ _ _ _ _, readSerialLoop_zero_cons _ _ _ _ _ _⟩
  | succ fuel ih =>
    constructor
    · rw [readSerialLoop_succ_cons, h1]
      show (match SerialCommand.readSerialLoop exampleConfig Handlers.silent echoFeed fuel
        (echoDispatcher.readSerialByte exampleConfig Handlers.silent 88).1 [10] with
        | none => none
        | some o => _) = none
      rw [ih.2]
    · rw [readSerialLoop_succ_cons, h2]
      show (match SerialCommand.readSerialLoop exampleConfig Handlers.silent echoFeed fuel
        echoDispatcher [88, 10] with
        | none => none
        | some o => _) = none
      rw [ih.1]

/-- The input `LED`, LF, `led`, LF: the loop returns after 8 iterations with the source
empty, and has not returned after 7; the handler 1 is called before the default
handler. -/
theorem readSerial_loop_terminates_witness :
    (ledDispatcher.readSerialLoop exampleConfig Handlers.silent (fun _ => []) 8
      [76, 69, 68, 10, 108, 101, 100, 10]).map Finished.source = some [] ∧
    (ledDispatcher.readSerialLoop exampleConfig Handlers.silent (fun _ => []) 8
      [76, 69, 68, 10, 108, 101, 100, 10]).map
        (fun o => o.trace.flatMap Iteration.events) =
      some [Event.command 0 1 [], Event.default 2 [108, 101, 100] []] ∧
    ledDispatcher.readSerialLoop exampleConfig Handlers.silent (fun _ => []) 7
      [76, 69, 68, 10, 108, 101, 100, 10] = none := by
  obtain ⟨trace, h1, h2, _, _, _, _, _, _, h9⟩ :=
    readSerial_loop_terminates exampleConfig Handlers.silent (fun _ => []) ledDispatcher
      [76, 69, 68, 10, 108, 101, 100, 10] (fun _ => rfl)
  refine ⟨?_, ?_, h2 7 (by decide)⟩
  · rw [h1 8 (by decide)]; rfl
  · rw [h1 8 (by decide)]
    show some (trace.flatMap Iteration.events) = _
    rw [h9]
    decide
